import Mathlib

/-!
# Verification of the TaskConf `Preset` engine

A shallow embedding of `src/config/Preset.py`: hierarchical, inheritable
configuration presets with typed value lookup along the inheritance chain,
minimal-delta computation (`diff_config`), full-config reconstruction
(`compose_config`), deterministic auto-naming and namespace scoping.

The external typed store (`ConfigurationBlock`, not part of `src/`) is
modelled from the spec, section 6: typed getters that fail with a NotFound
condition when a name is absent and a type-error condition when a value is
present but unconvertible, plus a `flatten` operation producing a mapping
from '/'-joined paths to leaf values.
-/

namespace TaskConf

/-- A leaf value of the configuration tree: the scalars (and lists) that the
raw JSON records of the repository hold. -/
inductive Val where
  | vInt : Int → Val
  | vStr : String → Val
  | vBool : Bool → Val
  | vList : List Val → Val
deriving Repr

mutual

def Val.decEq : (a b : Val) → Decidable (a = b)
  | .vInt a, .vInt b =>
      if h : a = b then .isTrue (by rw [h]) else .isFalse (by simp [h])
  | .vInt _, .vStr _ => .isFalse (by simp)
  | .vInt _, .vBool _ => .isFalse (by simp)
  | .vInt _, .vList _ => .isFalse (by simp)
  | .vStr _, .vInt _ => .isFalse (by simp)
  | .vStr a, .vStr b =>
      if h : a = b then .isTrue (by rw [h]) else .isFalse (by simp [h])
  | .vStr _, .vBool _ => .isFalse (by simp)
  | .vStr _, .vList _ => .isFalse (by simp)
  | .vBool _, .vInt _ => .isFalse (by simp)
  | .vBool _, .vStr _ => .isFalse (by simp)
  | .vBool a, .vBool b =>
      if h : a = b then .isTrue (by rw [h]) else .isFalse (by simp [h])
  | .vBool _, .vList _ => .isFalse (by simp)
  | .vList _, .vInt _ => .isFalse (by simp)
  | .vList _, .vStr _ => .isFalse (by simp)
  | .vList _, .vBool _ => .isFalse (by simp)
  | .vList a, .vList b =>
      match Val.decEqList a b with
      | .isTrue h => .isTrue (by rw [h])
      | .isFalse h => .isFalse (by simp [h])

def Val.decEqList : (a b : List Val) → Decidable (a = b)
  | [], [] => .isTrue rfl
  | [], _ :: _ => .isFalse (by simp)
  | _ :: _, [] => .isFalse (by simp)
  | x :: xs, y :: ys =>
      match Val.decEq x y with
      | .isFalse h => .isFalse (by simp [h])
      | .isTrue h1 =>
        match Val.decEqList xs ys with
        | .isTrue h2 => .isTrue (by rw [h1, h2])
        | .isFalse h2 => .isFalse (by simp [h2])

end

instance : DecidableEq Val := Val.decEq

/-- A node of the nested configuration tree: either a leaf value or a keyed
mapping of child nodes (the spec's tagged model of the Python dict tree). -/
inductive ConfigNode where
  | leaf : Val → ConfigNode
  | node : List (String × ConfigNode) → ConfigNode
deriving Repr

mutual

def ConfigNode.decEq : (a b : ConfigNode) → Decidable (a = b)
  | .leaf a, .leaf b =>
      if h : a = b then .isTrue (by rw [h]) else .isFalse (by simp [h])
  | .leaf _, .node _ => .isFalse (by simp)
  | .node _, .leaf _ => .isFalse (by simp)
  | .node a, .node b =>
      match ConfigNode.decEqList a b with
      | .isTrue h => .isTrue (by rw [h])
      | .isFalse h => .isFalse (by simp [h])

def ConfigNode.decEqList : (a b : List (String × ConfigNode)) → Decidable (a = b)
  | [], [] => .isTrue rfl
  | [], _ :: _ => .isFalse (by simp)
  | _ :: _, [] => .isFalse (by simp)
  | (k, x) :: xs, (l, y) :: ys =>
      if hk : k = l then
        match ConfigNode.decEq x y with
        | .isFalse h => .isFalse (by simp [h])
        | .isTrue h1 =>
          match ConfigNode.decEqList xs ys with
          | .isTrue h2 => .isTrue (by rw [hk, h1, h2])
          | .isFalse h2 => .isFalse (by simp [h2])
      else .isFalse (by simp [hk])

end

instance : DecidableEq ConfigNode := ConfigNode.decEq

/-- The entries of a mapping node: an insertion-ordered association list,
mirroring a Python dict. -/
abbrev Entries := List (String × ConfigNode)

/-- First binding of a key in a mapping (Python `d[k]` / `d.get(k)`). -/
def lookupKey (es : Entries) (k : String) : Option ConfigNode :=
  match es with
  | [] => none
  | (k', v) :: rest => if k' = k then some v else lookupKey rest k

/-- Python dict assignment `d[k] = v`: replaces the value in place when the
key exists (keeping its insertion position), appends otherwise. -/
def setKey (es : Entries) (k : String) (v : ConfigNode) : Entries :=
  match es with
  | [] => [(k, v)]
  | (k', w) :: rest => if k' = k then (k, v) :: rest else (k', w) :: setKey rest k v

/-- Python `del d[k]`: drop the binding(s) of a key. -/
def removeKey : Entries → String → Entries
  | [], _ => []
  | (k', v) :: rest, k =>
      if k' = k then removeKey rest k else (k', v) :: removeKey rest k

/-! ## The external typed store (`ConfigurationBlock`), modelled from the spec -/

/-- The requested value type of a typed getter (`get_int`, `get_string`,
`get_float`, `get_bool`, `get_list`).  The source dispatches on the type-name
string; modelled as an explicit enumeration as the spec's design notes ask. -/
inductive ValueType where
  | tInt | tString | tFloat | tBool | tList
deriving DecidableEq, Repr

/-- The failure conditions of the store (spec section 6/7): `notFound` when a
name is absent, `typeErr` when a value is present but unconvertible.  Each
carries the lookup key. -/
inductive CfgError where
  | notFound : String → CfgError
  | typeErr : String → CfgError
deriving DecidableEq, Repr

/-- Modelled from the spec: conversion of a stored leaf value to the requested
type by the external typed store.  The store is typed, so conversion succeeds
exactly when the stored leaf matches the requested tag (with `float` also
accepting integer leaves, the usual numeric widening); otherwise the store
raises its type-error condition. -/
def convert : ValueType → Val → Option Val
  | .tInt, .vInt n => some (.vInt n)
  | .tFloat, .vInt n => some (.vInt n)
  | .tString, .vStr s => some (.vStr s)
  | .tBool, .vBool b => some (.vBool b)
  | .tList, .vList xs => some (.vList xs)
  | _, _ => none

/-- Walk a '/'-separated path (already split into segments) down the tree. -/
def getPath : ConfigNode → List String → Option ConfigNode
  | c, [] => some c
  | .node es, k :: ks =>
      match lookupKey es k with
      | some c => getPath c ks
      | none => none
  | .leaf _, _ :: _ => none

/-- Splitting a character list on `'/'` with an accumulator of the current
segment's characters (in reverse). -/
def splitChars : List Char → List Char → List String
  | [], acc => [String.mk acc.reverse]
  | c :: cs, acc =>
      if c = '/' then String.mk acc.reverse :: splitChars cs []
      else splitChars cs (c :: acc)

/-- Python's `name.split('/')` (e.g. `"a/b" ↦ ["a", "b"]`, `"" ↦ [""]`). -/
def splitPath (s : String) : List String :=
  splitChars s.data []

/-- Modelled from the spec: a typed getter of the external store
(`ConfigurationBlock.get_<type>`).  The name is a '/'-joined path; an absent
path raises `notFound` naming the lookup key, a present but unconvertible
value (a mapping, or a leaf of the wrong type) raises `typeErr`. -/
def cbGet (ty : ValueType) (cfg : Entries) (name : String) : Except CfgError Val :=
  match getPath (.node cfg) (splitPath name) with
  | none => .error (.notFound name)
  | some (.leaf v) =>
      match convert ty v with
      | some w => .ok w
      | none => .error (.typeErr name)
  | some (.node _) => .error (.typeErr name)

mutual

/-- Modelled from the spec: `ConfigurationBlock.flatten`, with paths kept as
segment lists.  The '/'-joined form of the spec's interface is
`String.intercalate "/"` of each path (see `joinPath`); keeping the segments
is faithful whenever keys themselves contain no `'/'`. -/
def flattenEntries : Entries → List (List String × Val)
  | [] => []
  | (k, c) :: rest => (flattenNode c).map (fun p => (k :: p.1, p.2)) ++ flattenEntries rest

/-- Flattening of one child node, to be prefixed with its key. -/
def flattenNode : ConfigNode → List (List String × Val)
  | .leaf v => [([], v)]
  | .node es => flattenEntries es

end

/-- '/'-joined rendering of a flattened path (the spec's flatten interface). -/
def joinPath : List String → String
  | [] => ""
  | [s] => s
  | s :: s2 :: rest => s ++ "/" ++ joinPath (s2 :: rest)

/-- Python's `s.endswith(t)`, character-level. -/
def strEndsWith (s t : String) : Bool :=
  t.data.isSuffixOf s.data

/-- Python's `s[:-n]` (for `0 < n ≤ len(s)`), character-level. -/
def strDropRight (s : String) (n : Nat) : String :=
  String.mk (s.data.take (s.data.length - n))

/-- First match in a flattened mapping (`key in old_flattened` /
`old_flattened[key]`). -/
def lookupFlat (flat : List (List String × Val)) (p : List String) : Option Val :=
  match flat with
  | [] => none
  | (q, v) :: rest => if q = p then some v else lookupFlat rest p

mutual

/-- Python `str(value)` on a stored value, as used by the log line of
`_get_value_with_fallback` and by `_generate_name`. -/
def valStr : Val → String
  | .vInt n => toString n
  | .vStr s => s
  | .vBool b => if b then "True" else "False"
  | .vList xs => "[" ++ valStrList xs ++ "]"

/-- Comma-separated rendering of a list value's elements. -/
def valStrList : List Val → String
  | [] => ""
  | [x] => valStr x
  | x :: y :: rest => valStr x ++ ", " ++ valStrList (y :: rest)

end

/-! ## The compose engine (`Preset._deep_update`, `Preset.compose_config`) -/

/-- `Preset._deep_update(d, u)`: for each key `k` of the overlay `u`, a mapping
overlay value recurses into `d.get(k, {})` and every other overlay value is
assigned outright (`d[k] = v`).  The Python code indexes `d` as a dict, so a
leaf `d` with a non-empty overlay raises (`.error ()` here); with an empty
overlay it is returned unchanged. -/
def deepUpdate : ConfigNode → List (String × ConfigNode) → Except Unit ConfigNode
  | d, [] => .ok d
  | .leaf _, _ :: _ => .error ()
  | .node ds, (k, v) :: rest =>
      match v with
      | .node vs =>
          match deepUpdate ((lookupKey ds k).getD (.node [])) vs with
          | .error e => .error e
          | .ok m => deepUpdate (.node (setKey ds k m)) rest
      | .leaf w => deepUpdate (.node (setKey ds k (.leaf w))) rest

mutual

/-- Deep merge as the spec words it (section 4.3): for each overlay key, if
both the existing and the overlay values are nested mappings, merge
recursively (union of keys); otherwise the overlay value replaces the
existing value outright.  Used to compare the code's `_deep_update` against
the spec's stated policy. -/
def specDeepMerge : Entries → List (String × ConfigNode) → Entries
  | d, [] => d
  | d, (k, v) :: rest => specDeepMerge (specMergeKey d k v) rest

/-- The spec's merge policy for a single overlay key. -/
def specMergeKey (d : Entries) (k : String) (v : ConfigNode) : Entries :=
  match v, lookupKey d k with
  | .node vs, some (.node ds) => setKey d k (.node (specDeepMerge ds vs))
  | _, _ => setKey d k v

end

mutual

/-- Well-formed entries: the keys of every mapping level are distinct, as in
a Python dict. -/
def wfEntries : Entries → Bool
  | [] => true
  | (k, v) :: rest =>
      !(rest.any (fun p => p.1 == k)) && wfNode v && wfEntries rest

/-- Well-formed node: every mapping level below has distinct keys. -/
def wfNode : ConfigNode → Bool
  | .leaf _ => true
  | .node es => wfEntries es

end

mutual

/-- Sufficient condition for `_deep_update` to implement the spec's merge
policy: every overlay mapping lands on an existing mapping or on an absent
key (never on a leaf), and an overlay mapping landing on an absent key is
reproduced verbatim by merging it into nothing (true for ordinary configs,
whose keys are unique per level).  The base config is threaded through the
per-key updates exactly as `_deep_update` threads its own. -/
def compatibleStrict : Entries → List (String × ConfigNode) → Bool
  | _, [] => true
  | ds, (k, v) :: rest =>
      compatKey ds k v && compatibleStrict (specMergeKey ds k v) rest

/-- Compatibility of a single overlay key with the existing entries. -/
def compatKey (ds : Entries) (k : String) (v : ConfigNode) : Bool :=
  match v with
  | .leaf _ => true
  | .node vs =>
      match lookupKey ds k with
      | some (.node ds2) => compatibleStrict ds2 vs
      | some (.leaf _) => false
      | none => compatibleStrict [] vs && decide (specDeepMerge [] vs = vs)

end

/-! ## The diff engine (`Preset.diff_config`) -/

/-- Delete the binding at a (non-empty) flattened path from the nested
structure: navigate `keys[:-1]` and `del` the last key (`diff_config`'s first
deletion block).  Paths are the split segments of a flattened key. -/
def deleteAt : Entries → List String → Entries
  | es, [] => es
  | es, [k] => removeKey es k
  | es, k :: k2 :: ks =>
      es.map (fun p =>
        if p.1 = k then
          match p.2 with
          | .node cs => (p.1, ConfigNode.node (deleteAt cs (k2 :: ks)))
          | c => (p.1, c)
        else p)

/-- Read the container at a (non-empty) path, as `diff_config`'s pruning loop
does when checking `len(config_block[keys[-1]]) == 0`. -/
def getAt : Entries → List String → Option ConfigNode
  | _, [] => none
  | es, [k] => lookupKey es k
  | es, k :: ks =>
      match lookupKey es k with
      | some (.node cs) => getAt cs ks
      | _ => none

/-- `diff_config`'s pruning loop, one `while` iteration per fuel unit: check
the container at the current path, delete it when empty, pop the last key
and continue; stop at the first non-empty container or at the root. -/
def pruneLoop : Nat → Entries → List String → Entries
  | 0, cfg, _ => cfg
  | _ + 1, cfg, [] => cfg
  | fuel + 1, cfg, k :: ks =>
      match getAt cfg (k :: ks) with
      | some (.node []) => pruneLoop fuel (deleteAt cfg (k :: ks)) (k :: ks).dropLast
      | _ => cfg

/-- `diff_config`'s pruning loop: walk the deleted path's ancestry upward,
deleting every container that has become empty, stopping at the first
non-empty one (or the root).  The loop pops one key per iteration, so
`ks.length` units of fuel always suffice. -/
def pruneUp (cfg : Entries) (ks : List String) : Entries :=
  pruneLoop ks.length cfg ks

/-- One iteration of `diff_config`'s loop body for a key that is present in
both flattenings with equal values: delete the leaf, then prune
newly-emptied ancestors. -/
def diffStep (cfg : Entries) (keys : List String) : Entries :=
  pruneUp (deleteAt cfg keys) keys.dropLast

/-- `Preset.diff_config(config)` against an old (stored) config `old`:
flatten both, and for every path present in both with equal values delete it
from the candidate and prune emptied containers.  The Python code joins
flattened paths with '/' and splits them back with `key.split('/')`; the two
steps are fused here (faithful whenever keys contain no '/'). -/
def diffEntries (old : Entries) (config : Entries) : Entries :=
  (flattenEntries config).foldl
    (fun cfg kv =>
      match lookupFlat (flattenEntries old) kv.1 with
      | some ov => if ov = kv.2 then diffStep cfg kv.1 else cfg
      | none => cfg)
    config

/-! ## The `Preset` data model -/

/-- The raw record backing a preset (`data`): `name?`, `uuid`,
`creation_time`, `config`, `abstract?`.  `uuid` and `creation_time` are
generated externally when absent, so they appear here as plain values. -/
structure RawData where
  name : Option String
  uuid : String
  creationTime : Nat
  config : Entries
  abstract : Bool
deriving DecidableEq, Repr

/-- The non-recursive fields of a `Preset`.  `config` is the tree wrapped by
`ConfigurationBlock(data['config'])`, i.e. this preset's own delta; the
logger object is modelled by the flag `hasLogger`, and `_printed_settings`
by the list `printed`. -/
structure PresetFields where
  pfx : String
  file : Option String
  tryNumber : Nat
  printed : List String
  hasLogger : Bool
  data : RawData
  config : Entries
  name : String
  uuid : String
  creationTime : Nat
  abstract : Bool
deriving DecidableEq, Repr

/-- A preset: its own fields plus an optional base preset (the inheritance
chain, always finite). -/
inductive Preset where
  | mk : PresetFields → Option Preset → Preset

def Preset.fields : Preset → PresetFields
  | .mk f _ => f

def Preset.base : Preset → Option Preset
  | .mk _ b => b

def Preset.pfx (p : Preset) : String := p.fields.pfx

def Preset.config (p : Preset) : Entries := p.fields.config

def Preset.data (p : Preset) : RawData := p.fields.data

def Preset.name (p : Preset) : String := p.fields.name

def Preset.printed (p : Preset) : List String := p.fields.printed

def Preset.hasLogger (p : Preset) : Bool := p.fields.hasLogger

def Preset.abstract (p : Preset) : Bool := p.fields.abstract

def Preset.file (p : Preset) : Option String := p.fields.file

def Preset.tryNumber (p : Preset) : Nat := p.fields.tryNumber

def Preset.uuid (p : Preset) : String := p.fields.uuid

def Preset.creationTime (p : Preset) : Nat := p.fields.creationTime

/-- `Preset.__init__` with `data=None`: empty data, empty name, no logger,
nothing printed, not abstract (`config = None` is modelled as the empty
tree). -/
def Preset.emptyInit (base : Option Preset) (file : Option String) : Preset :=
  .mk { pfx := "", file := file, tryNumber := 0, printed := [], hasLogger := false
        data := { name := none, uuid := "", creationTime := 0, config := [], abstract := false }
        config := [], name := "", uuid := "", creationTime := 0, abstract := false } base

/-- `Preset.clone`: a fresh `Preset(base_preset=self.base_preset)` with
`name`, `config`, `data`, the lookup path prefix, `file`, `try_number`,
`uuid` and `creation_time` copied over.  `abstract`, the logger and the
printed-settings set are *not* copied and keep their `__init__` defaults. -/
def Preset.clone (p : Preset) : Preset :=
  match Preset.emptyInit p.base none with
  | .mk f _ =>
      .mk { f with
            name := p.name, config := p.config, data := p.data, pfx := p.pfx
            file := p.file, tryNumber := p.tryNumber, uuid := p.uuid
            creationTime := p.creationTime } p.base

/-- `Preset.get_with_prefix(prefix)`: clone and extend the lookup path prefix
with `prefix + "/"`. -/
def Preset.withPfx (p : Preset) (seg : String) : Preset :=
  match p.clone with
  | .mk f b => .mk { f with pfx := p.pfx ++ seg ++ "/" } b

/-- `Preset.set_logger(new_logger)`: clear the printed-settings set and
install the new logger. -/
def Preset.setLogger (p : Preset) (newLogger : Bool) : Preset :=
  match p with
  | .mk f b => .mk { f with printed := [], hasLogger := newLogger } b

/-- `self._printed_settings.add(name)`. -/
def Preset.addPrinted (p : Preset) (n : String) : Preset :=
  match p with
  | .mk f b => .mk { f with printed := n :: f.printed } b

/-! ## Resolution (`_get_value`, `_get_value_with_fallback`, typed getters) -/

/-- `Preset._get_value(name, value_type)`: look the name up in this preset's
own config; on the store's NotFound condition (and only on that one)
delegate to the base preset, or re-raise at a root. -/
def Preset.getValue : Preset → String → ValueType → Except CfgError Val
  | .mk f b, nm, ty =>
      match cbGet ty f.config nm with
      | .ok v => .ok v
      | .error (.notFound m) =>
          match b with
          | none => .error (.notFound m)
          | some bp => bp.getValue nm ty
      | .error (.typeErr m) => .error (.typeErr m)

/-- Outcome of one `_get_value_with_fallback` call: the returned value or
raised condition, the preset with its (possibly) updated printed-settings
set, and the emitted log lines. -/
structure LookupResult where
  result : Except CfgError Val
  preset : Preset
  logs : List String

/-- `Preset._get_value_with_fallback(name, fallback, value_type)`: prepend
the path prefix, resolve along the chain, on a NotFound miss retry with the
prefixed fallback name (when one was given), and log
`"Using <name> = <value>"` on first successful resolution of the prefixed
primary name while a logger is installed. -/
def Preset.getValueWithFallback (p : Preset) (nm : String) (fallback : Option String)
    (ty : ValueType) : LookupResult :=
  let n := p.pfx ++ nm
  let res :=
    match p.getValue n ty with
    | .ok v => Except.ok v
    | .error (.notFound m) =>
        match fallback with
        | some fb => p.getValue (p.pfx ++ fb) ty
        | none => .error (.notFound m)
    | .error (.typeErr m) => .error (.typeErr m)
  match res with
  | .ok v =>
      if n ∉ p.printed ∧ p.hasLogger then
        { result := .ok v, preset := p.addPrinted n,
          logs := ["Using " ++ n ++ " = " ++ valStr v] }
      else
        { result := .ok v, preset := p, logs := [] }
  | .error e => { result := .error e, preset := p, logs := [] }

/-- `Preset.get_int`. -/
def Preset.getInt (p : Preset) (nm : String) (fallback : Option String) : LookupResult :=
  p.getValueWithFallback nm fallback .tInt

/-- `Preset.get_string`. -/
def Preset.getString (p : Preset) (nm : String) (fallback : Option String) : LookupResult :=
  p.getValueWithFallback nm fallback .tString

/-- `Preset.get_float`. -/
def Preset.getFloat (p : Preset) (nm : String) (fallback : Option String) : LookupResult :=
  p.getValueWithFallback nm fallback .tFloat

/-- `Preset.get_bool`. -/
def Preset.getBool (p : Preset) (nm : String) (fallback : Option String) : LookupResult :=
  p.getValueWithFallback nm fallback .tBool

/-- `Preset.get_list`. -/
def Preset.getList (p : Preset) (nm : String) (fallback : Option String) : LookupResult :=
  p.getValueWithFallback nm fallback .tList

/-! ## Naming and construction (`_generate_name`, `set_data`) -/

/-- `Preset._generate_name()` on a preset with base `base` and (already
diffed) own config `cfg`: prepend `"<base.name>: "` when the base is itself
derived, append `"<path>: <value> - "` for every flattened entry, strip a
trailing `" - "`, and fall back to `"empty"` when the string stayed empty
(the source's `name is ""` check, which on the interned empty string behaves
as equality). -/
def Preset.generateName (base : Option Preset) (cfg : Entries) : String :=
  let start :=
    match base with
    | some bp =>
        match bp.base with
        | some _ => bp.name ++ ": "
        | none => ""
    | none => ""
  let body := (flattenEntries cfg).foldl
      (fun acc kv => acc ++ joinPath kv.1 ++ ": " ++ valStr kv.2 ++ " - ") start
  if strEndsWith body " - " then strDropRight body 3
  else if body = "" then "empty" else body

/-- `Preset.diff_config(config)`: reduce a candidate config to its minimal
delta against this preset's own stored config (see `diffEntries`). -/
def Preset.diffConfig (p : Preset) (config : Entries) : Entries :=
  diffEntries p.config config

/-- `Preset.__init__` with raw data, i.e. `set_data`: against a base preset
the candidate config is first reduced by the base's `diff_config`; the name
is taken from the record or generated (and in that case written back into
`data['name']`). -/
def Preset.setData (base : Option Preset) (file : Option String) (raw : RawData) : Preset :=
  let cfg :=
    match base with
    | some bp => bp.diffConfig raw.config
    | none => raw.config
  let nm :=
    match raw.name with
    | some n => n
    | none => Preset.generateName base cfg
  -- `data['name']` equals `nm` afterwards whether it was explicit or generated
  let data2 : RawData := { raw with config := cfg, name := some nm }
  .mk { pfx := "", file := file, tryNumber := 0, printed := [], hasLogger := false
        data := data2, config := cfg, name := nm, uuid := raw.uuid
        creationTime := raw.creationTime, abstract := raw.abstract } base

/-! ## Composition (`compose_config`) -/

/-- `Preset.compose_config()`: a root returns (a deep copy of) its own
config; a derived preset deep-merges its own delta on top of the base's
composed config.  Deep copies are identities in this pure model. -/
def Preset.composeConfig : Preset → Except Unit Entries
  | .mk f none => .ok f.data.config
  | .mk f (some b) =>
      match b.composeConfig with
      | .error e => .error e
      | .ok baseCfg =>
          match deepUpdate (.node baseCfg) f.data.config with
          | .ok (.node es) => .ok es
          | .ok (.leaf _) => .error ()   -- unreachable: updating a mapping yields a mapping
          | .error e => .error e

/-! ## Spec-side chain resolution (for the nearest-ancestor claim) -/

/-- The own configs along the inheritance chain, most-derived first. -/
def Preset.chainConfigs : Preset → List Entries
  | .mk f none => [f.config]
  | .mk f (some b) => f.config :: b.chainConfigs

/-- The spec's wording of resolution: the nearest (most-derived) config in
the chain that resolves the name wins; only a NotFound miss moves on to the
next ancestor. -/
def nearestResolve : List Entries → String → ValueType → Except CfgError Val
  | [], nm, _ => .error (.notFound nm)
  | c :: rest, nm, ty =>
      match cbGet ty c nm with
      | .error (.notFound _) => nearestResolve rest nm ty
      | r => r

/-! ## Concrete presets used by witnesses and counterexamples -/

/-- A root preset holding `{x: 1}`. -/
def exRoot : Preset :=
  Preset.setData none none
    { name := some "R", uuid := "u0", creationTime := 0
      config := [("x", .leaf (.vInt 1))], abstract := false }

/-- A preset derived from `exRoot` with candidate `{x: 1, y: 2}`; its stored
delta is `{y: 2}`. -/
def exA : Preset :=
  Preset.setData (some exRoot) none
    { name := some "A", uuid := "u1", creationTime := 0
      config := [("x", .leaf (.vInt 1)), ("y", .leaf (.vInt 2))], abstract := false }

/-- A preset derived from `exA` with candidate `{x: 1}`: the diff runs only
against `exA`'s own delta `{y: 2}`, so the chain-resolvable `x = 1` stays in
the stored delta. -/
def exB : Preset :=
  Preset.setData (some exA) none
    { name := none, uuid := "u2", creationTime := 0
      config := [("x", .leaf (.vInt 1))], abstract := false }

/-- A preset derived from `exA` with candidate `{y: 2}` and no explicit
name: its delta diffs to empty, and its base is itself derived. -/
def exC : Preset :=
  Preset.setData (some exA) none
    { name := none, uuid := "u3", creationTime := 0
      config := [("y", .leaf (.vInt 2))], abstract := false }

/-- A preset derived from the root `exRoot` with candidate `{x: 1}` and no
explicit name: its delta diffs to empty. -/
def exD : Preset :=
  Preset.setData (some exRoot) none
    { name := none, uuid := "u4", creationTime := 0
      config := [("x", .leaf (.vInt 1))], abstract := false }

/-- A root preset holding `{a: 1}` (scalar at `a`). -/
def exMroot : Preset :=
  Preset.setData none none
    { name := some "M", uuid := "u5", creationTime := 0
      config := [("a", .leaf (.vInt 1))], abstract := false }

/-- A preset derived from `exMroot` whose delta holds a mapping at `a`
(`{a: {b: 2}}`): composing it lands a mapping overlay on a scalar. -/
def exM : Preset :=
  Preset.setData (some exMroot) none
    { name := some "MD", uuid := "u6", creationTime := 0
      config := [("a", .node [("b", .leaf (.vInt 2))])], abstract := false }

/-- A root preset holding `{a: {x: 1}}` (mapping at `a`). -/
def exNroot : Preset :=
  Preset.setData none none
    { name := some "N", uuid := "u7", creationTime := 0
      config := [("a", .node [("x", .leaf (.vInt 1))])], abstract := false }

/-- A preset derived from `exNroot` with delta `{a: {b: 2}}`: composing it
merges two mappings at `a`. -/
def exN : Preset :=
  Preset.setData (some exNroot) none
    { name := some "ND", uuid := "u8", creationTime := 0
      config := [("a", .node [("b", .leaf (.vInt 2))])], abstract := false }

/-! ## Resolution lemmas -/

/-- The store's NotFound condition always names the queried key. -/
theorem cbGet_notFound_name {ty : ValueType} {c : Entries} {nm m : String}
    (h : cbGet ty c nm = .error (.notFound m)) : m = nm := by
  unfold cbGet at h
  split at h <;> first
    | (simp only [Except.error.injEq, CfgError.notFound.injEq] at h; exact h.symm)
    | simp at h
    | (split at h <;> simp at h)

/-- The returned condition of `_get_value_with_fallback`, as a function of
the two chain lookups: the fallback is consulted exactly on a NotFound miss
of the prefixed primary name. -/
theorem getValueWithFallback_result (p : Preset) (nm : String) (fb : Option String)
    (ty : ValueType) :
    (p.getValueWithFallback nm fb ty).result =
      match p.getValue (p.pfx ++ nm) ty with
      | .ok v => .ok v
      | .error (.notFound m) =>
          (match fb with
           | some f => p.getValue (p.pfx ++ f) ty
           | none => Except.error (.notFound m))
      | .error (.typeErr m) => .error (.typeErr m) := by
  unfold Preset.getValueWithFallback
  cases h : p.getValue (p.pfx ++ nm) ty with
  | ok v => simp only [h]; split <;> rfl
  | error e =>
      cases e with
      | notFound m =>
          cases fb with
          | none => simp only [h]
          | some f =>
              simp only [h]
              cases h2 : p.getValue (p.pfx ++ f) ty with
              | ok v => simp only [h2]; split <;> rfl
              | error e2 => simp only [h2]
      | typeErr m => simp only [h]

/-- `_get_value` implements the spec's nearest-ancestor rule: the most
derived config in the chain that resolves the name decides the outcome, and
only a NotFound miss moves to the next ancestor. -/
theorem getValue_eq_nearestResolve :
    ∀ (p : Preset) (nm : String) (ty : ValueType),
      p.getValue nm ty = nearestResolve p.chainConfigs nm ty
  | .mk f none, nm, ty => by
      simp only [Preset.getValue, Preset.chainConfigs, nearestResolve]
      cases h : cbGet ty f.config nm with
      | ok v => rfl
      | error e =>
          cases e with
          | notFound m => simpa [nearestResolve] using (cbGet_notFound_name h)
          | typeErr m => rfl
  | .mk f (some b), nm, ty => by
      have ih := getValue_eq_nearestResolve b nm ty
      simp only [Preset.getValue, Preset.chainConfigs, nearestResolve]
      cases h : cbGet ty f.config nm with
      | ok v => rfl
      | error e =>
          cases e with
          | notFound m => exact ih
          | typeErr m => rfl

/-- When `_get_value` reports NotFound, every config along the chain missed
the name. -/
theorem getValue_notFound_chain :
    ∀ (p : Preset) (nm : String) (ty : ValueType) (m : String),
      p.getValue nm ty = .error (.notFound m) →
      ∀ c ∈ p.chainConfigs, cbGet ty c nm = .error (.notFound nm)
  | .mk f none, nm, ty, m => by
      intro h c hc
      simp only [Preset.chainConfigs, List.mem_singleton] at hc
      subst hc
      simp only [Preset.getValue] at h
      cases h2 : cbGet ty f.config nm with
      | ok v => rw [h2] at h; exact absurd h (by simp)
      | error e =>
          cases e with
          | notFound m2 =>
              have e2 := cbGet_notFound_name h2
              subst e2
              rfl
          | typeErr m2 => rw [h2] at h; exact absurd h (by simp)
  | .mk f (some b), nm, ty, m => by
      intro h c hc
      simp only [Preset.chainConfigs, List.mem_cons] at hc
      simp only [Preset.getValue] at h
      cases h2 : cbGet ty f.config nm with
      | ok v => rw [h2] at h; exact absurd h (by simp)
      | error e =>
          cases e with
          | notFound m2 =>
              rcases hc with hc | hc
              · subst hc
                have e2 := cbGet_notFound_name h2
                subst e2
                exact h2
              · rw [h2] at h
                exact getValue_notFound_chain b nm ty m h c hc
          | typeErr m2 => rw [h2] at h; exact absurd h (by simp)

/-! ## Claim theorems: resolution -/

/-- C1: every typed getter called on a preset resolves the prefixed name at
the nearest (most-derived) preset of the inheritance chain that defines it:
the preset's own config is consulted first and only a NotFound miss
delegates to the base, recursively to the root (`nearestResolve` is the
spec-side statement of that rule; the typed getters are
`getValueWithFallback` at the five type tags). -/
theorem claim_C1 (p : Preset) (k : String) (ty : ValueType) :
    (p.getValueWithFallback k none ty).result
        = nearestResolve p.chainConfigs (p.pfx ++ k) ty ∧
    p.getValue (p.pfx ++ k) ty = nearestResolve p.chainConfigs (p.pfx ++ k) ty := by
  have h1 := getValue_eq_nearestResolve p (p.pfx ++ k) ty
  refine ⟨?_, h1⟩
  rw [getValueWithFallback_result, h1]
  cases hq : nearestResolve p.chainConfigs (p.pfx ++ k) ty with
  | ok v => rfl
  | error e => cases e <;> rfl

/-- C4: the fallback name is consulted only after the prefixed primary name
has missed (NotFound) everywhere in the chain — a present-but-falsy primary
value still wins — and when the primary misses everywhere the whole lookup
is retried on the prefixed fallback, whose NotFound failure (or absence of a
fallback) is raised to the caller. -/
theorem claim_C4 (p : Preset) (nm : String) (fb : Option String) (ty : ValueType) :
    ((p.getValueWithFallback nm fb ty).result =
      match p.getValue (p.pfx ++ nm) ty with
      | .ok v => .ok v
      | .error (.notFound m) =>
          (match fb with
           | some f => p.getValue (p.pfx ++ f) ty
           | none => Except.error (.notFound m))
      | .error (.typeErr m) => .error (.typeErr m)) ∧
    (∀ m, p.getValue (p.pfx ++ nm) ty = .error (.notFound m) →
      ∀ c ∈ p.chainConfigs, cbGet ty c (p.pfx ++ nm) = .error (.notFound (p.pfx ++ nm))) :=
  ⟨getValueWithFallback_result p nm fb ty,
   fun m h => getValue_notFound_chain p (p.pfx ++ nm) ty m h⟩

/-- C9: a type-conversion condition raised by the typed store propagates
unchanged: resolution does not walk to the base preset past it, and the
getter neither catches it nor consults the fallback. -/
theorem claim_C9 (p : Preset) (nm : String) (fb : Option String) (ty : ValueType)
    (m : String) :
    (cbGet ty p.config (p.pfx ++ nm) = .error (.typeErr m) →
      p.getValue (p.pfx ++ nm) ty = .error (.typeErr m)) ∧
    (p.getValue (p.pfx ++ nm) ty = .error (.typeErr m) →
      (p.getValueWithFallback nm fb ty).result = .error (.typeErr m)) := by
  constructor
  · intro h
    cases p with
    | mk f b => simp only [Preset.config, Preset.fields] at h; simp [Preset.getValue, h]
  · intro h
    rw [getValueWithFallback_result, h]

/-- `_get_value` reads only the configs and the chain, so two presets with
equal fields up to the lookup-irrelevant ones resolve identically. -/
theorem getValue_fields_congr (f g : PresetFields) (b : Option Preset) (nm : String)
    (ty : ValueType) (h : f.config = g.config) :
    (Preset.mk f b).getValue nm ty = (Preset.mk g b).getValue nm ty := by
  simp only [Preset.getValue, h]

/-- `_get_value_with_fallback` on a successful chain lookup: the value is
returned and the log line is emitted exactly when the prefixed name is
unprinted and a logger is installed. -/
theorem getValueWithFallback_of_getValue_ok (p : Preset) (nm : String) (fb : Option String)
    (ty : ValueType) (v : Val) (h : p.getValue (p.pfx ++ nm) ty = .ok v) :
    p.getValueWithFallback nm fb ty =
      if (p.pfx ++ nm) ∉ p.printed ∧ p.hasLogger = true then
        { result := .ok v, preset := p.addPrinted (p.pfx ++ nm),
          logs := ["Using " ++ (p.pfx ++ nm) ++ " = " ++ valStr v] }
      else { result := .ok v, preset := p, logs := [] } := by
  unfold Preset.getValueWithFallback
  simp only [h]

/-! ## Claim theorems: prefix scoping, cloning, logging -/

/-- C7: `get_with_prefix(s)` yields a view that shares `config`,
`base_preset` and `data` with the original, carries the extended path prefix
`self.prefix + s + "/"`, and resolves `k` exactly as the original resolves
`s + "/" + k` (same value, same failure). -/
theorem claim_C7 (p : Preset) (s k : String) (ty : ValueType) :
    ((p.withPfx s).getValueWithFallback k none ty).result
        = (p.getValueWithFallback (s ++ "/" ++ k) none ty).result ∧
    (p.withPfx s).config = p.config ∧
    (p.withPfx s).base = p.base ∧
    (p.withPfx s).data = p.data ∧
    (p.withPfx s).pfx = p.pfx ++ s ++ "/" := by
  cases p with
  | mk f b =>
      refine ⟨?_, rfl, rfl, rfl, rfl⟩
      rw [getValueWithFallback_result, getValueWithFallback_result]
      have hnm : ((Preset.mk f b).withPfx s).pfx ++ k
          = (Preset.mk f b).pfx ++ (s ++ "/" ++ k) := by
        show (f.pfx ++ s ++ "/") ++ k = f.pfx ++ (s ++ "/" ++ k)
        simp [String.append_assoc]
      have hgv : ∀ n, ((Preset.mk f b).withPfx s).getValue n ty
          = (Preset.mk f b).getValue n ty := by
        intro n
        show (Preset.mk _ b).getValue n ty = (Preset.mk f b).getValue n ty
        exact getValue_fields_congr _ f b n ty rfl
      rw [hnm, hgv]

/-- C10: `clone()` (and therefore `get_with_prefix`) does not copy
`abstract` or the logger state: the resulting preset's abstract flag is
false, its logger is absent and its printed-settings set is empty,
regardless of the original. -/
theorem claim_C10 (p : Preset) (s : String) :
    p.clone.abstract = false ∧ p.clone.hasLogger = false ∧ p.clone.printed = [] ∧
    (p.withPfx s).abstract = false ∧ (p.withPfx s).hasLogger = false ∧
    (p.withPfx s).printed = [] := by
  cases p with
  | mk f b => exact ⟨rfl, rfl, rfl, rfl, rfl, rfl⟩

/-- C8: within one logger session (started by `set_logger`), the first
successful resolution of a prefixed name emits exactly one
`"Using <name> = <value>"` line, the next resolution of the same name on
the resulting preset emits nothing (while still returning the value), and
calling `set_logger` again clears the dedup set so the same resolution logs
again. -/
theorem claim_C8 (p : Preset) (nm : String) (ty : ValueType) (v : Val)
    (h : ((p.setLogger true).getValueWithFallback nm none ty).result = .ok v) :
    ((p.setLogger true).getValueWithFallback nm none ty).logs
        = ["Using " ++ (p.pfx ++ nm) ++ " = " ++ valStr v] ∧
    ((((p.setLogger true).getValueWithFallback nm none ty).preset).getValueWithFallback
        nm none ty).logs = [] ∧
    ((((p.setLogger true).getValueWithFallback nm none ty).preset).getValueWithFallback
        nm none ty).result = .ok v ∧
    (((((p.setLogger true).getValueWithFallback nm none ty).preset).setLogger
        true).getValueWithFallback nm none ty).logs
        = ["Using " ++ (p.pfx ++ nm) ++ " = " ++ valStr v] := by
  cases p with
  | mk f b =>
      have hsl : (Preset.mk f b).setLogger true
          = Preset.mk { f with printed := [], hasLogger := true } b := rfl
      have hpfx : (Preset.mk f b).pfx = f.pfx := rfl
      rw [hsl] at h ⊢
      rw [hpfx]
      have hg : (Preset.mk { f with printed := [], hasLogger := true } b).getValue
          (f.pfx ++ nm) ty = .ok v := by
        rw [getValueWithFallback_result] at h
        cases hq : (Preset.mk { f with printed := [], hasLogger := true } b).getValue
            ((Preset.mk { f with printed := [], hasLogger := true } b).pfx ++ nm) ty with
        | ok w => rw [hq] at h; simp only [Except.ok.injEq] at h; rw [← h]; exact hq
        | error e => rw [hq] at h; cases e <;> simp at h
      have h1 := getValueWithFallback_of_getValue_ok
        (Preset.mk { f with printed := [], hasLogger := true } b) nm none ty v hg
      rw [if_pos (by simp [Preset.printed, Preset.pfx, Preset.fields, Preset.hasLogger])] at h1
      have hg2 : (Preset.mk { f with printed := [f.pfx ++ nm], hasLogger := true } b).getValue
          (f.pfx ++ nm) ty = .ok v :=
        (getValue_fields_congr { f with printed := [f.pfx ++ nm], hasLogger := true }
          { f with printed := [], hasLogger := true } b (f.pfx ++ nm) ty rfl).trans hg
      have h2 := getValueWithFallback_of_getValue_ok
        (Preset.mk { f with printed := [f.pfx ++ nm], hasLogger := true } b) nm none ty v hg2
      rw [if_neg (by simp [Preset.printed, Preset.pfx, Preset.fields])] at h2
      refine ⟨(congrArg LookupResult.logs h1).trans rfl, ?_, ?_, ?_⟩
      · rw [h1]
        exact (congrArg LookupResult.logs h2).trans rfl
      · rw [h1]
        exact (congrArg LookupResult.result h2).trans rfl
      · rw [h1]
        exact (congrArg LookupResult.logs h1).trans rfl

/-! ## Witnesses for the resolution and logging claims -/

/-- Witness for C4 at a concrete chain: the primary name misses everywhere
(in particular at the root) and the fallback's value is returned. -/
theorem claim_C4_witness :
    (exA.getValueWithFallback "nope" (some "y") .tInt).result = Except.ok (Val.vInt 2) ∧
    cbGet .tInt exRoot.config "nope" = .error (.notFound "nope") := by
  have h := claim_C4 exA "nope" (some "y") .tInt
  constructor
  · exact h.1.trans rfl
  · exact h.2 "nope" rfl exRoot.config (by decide)

/-- Witness for C9 at a concrete chain: `x` is stored as an integer, so
`get_string` surfaces the type-conversion condition from the root through
the whole resolution, without consulting the fallback. -/
theorem claim_C9_witness :
    exRoot.getValue "x" .tString = .error (.typeErr "x") ∧
    (exA.getValueWithFallback "x" (some "y") .tString).result = .error (.typeErr "x") := by
  have h1 := (claim_C9 exRoot "x" none .tString "x").1 rfl
  have h2 := (claim_C9 exA "x" (some "y") .tString "x").2 rfl
  exact ⟨h1, h2⟩

/-- Witness for C8 at a concrete preset: resolving `x` twice logs once, and
logs again after `set_logger`. -/
theorem claim_C8_witness :
    ((exRoot.setLogger true).getValueWithFallback "x" none .tInt).result
        = Except.ok (Val.vInt 1) ∧
    ((exRoot.setLogger true).getValueWithFallback "x" none .tInt).logs = ["Using x = 1"] ∧
    ((((exRoot.setLogger true).getValueWithFallback "x" none .tInt).preset).getValueWithFallback
        "x" none .tInt).logs = [] := by
  have h := claim_C8 exRoot "x" .tInt (.vInt 1) rfl
  exact ⟨rfl, h.1.trans rfl, h.2.1⟩

/-! ## Claim theorems: naming -/

/-- C6 counterexample: `exC` has no explicit name and an empty stored delta,
yet its generated name is `"A: "`, not `"empty"`: its base `exA` is itself
derived, so `_generate_name` prepends `"A: "` before checking for the empty
string, and `"A: "` neither ends in `" - "` nor is empty. -/
theorem claim_C6_counterexample :
    exC.config = [] ∧ exC.data.name = some "A: " ∧ exC.name = "A: " ∧ exC.name ≠ "empty" := by
  refine ⟨rfl, rfl, rfl, ?_⟩
  intro h
  exact absurd (rfl.trans h : "A: " = "empty") (by decide)

/-- C6 (amended): a preset whose raw record has no explicit name, whose
stored delta is empty, and whose base chain has depth at most one (no base,
or a base that is itself a root) is named exactly `"empty"`, and the name is
written back into `data['name']`.  (With a derived base the generated name
is `base.name ++ ": "` instead — see the counterexample.) -/
theorem claim_C6_amended (base : Option Preset) (file : Option String) (raw : RawData)
    (hname : raw.name = none)
    (hbase : match base with | none => True | some bp => bp.base = none)
    (hdelta : flattenEntries (Preset.setData base file raw).config = []) :
    (Preset.setData base file raw).name = "empty" ∧
    (Preset.setData base file raw).data.name = some "empty" := by
  cases base with
  | none =>
      simp only [Preset.setData, Preset.config, Preset.fields] at hdelta
      simp only [Preset.setData, Preset.name, Preset.data, Preset.fields, hname,
        Preset.generateName]
      rw [hdelta]
      exact ⟨rfl, rfl⟩
  | some bp =>
      cases bp with
      | mk bf bb =>
          simp only [Preset.setData, Preset.config, Preset.fields] at hdelta
          simp only [Preset.base] at hbase
          subst hbase
          simp only [Preset.setData, Preset.name, Preset.data, Preset.config, Preset.fields,
            Preset.base, hname, Preset.generateName]
          rw [hdelta]
          exact ⟨rfl, rfl⟩

/-- Witness for the amended C6: `exD` (no explicit name, empty delta, root
base) is named `"empty"`. -/
theorem claim_C6_witness :
    exD.name = "empty" ∧ exD.data.name = some "empty" :=
  claim_C6_amended (some exRoot) none
    { name := none, uuid := "u4", creationTime := 0
      config := [("x", .leaf (.vInt 1))], abstract := false } rfl rfl rfl

/-! ## Claim theorems: composition -/

/-- The leaf-overlay case of the spec merge reduces to plain assignment. -/
theorem specMergeKey_leaf (d : Entries) (k : String) (w : Val) :
    specMergeKey d k (.leaf w) = setKey d k (.leaf w) := rfl

/-- On the compatible domain, `_deep_update` implements the spec's deep
merge policy. -/
theorem deepUpdate_eq_specDeepMerge :
    ∀ (ds : Entries) (u : List (String × ConfigNode)),
      compatibleStrict ds u = true →
      deepUpdate (.node ds) u = .ok (.node (specDeepMerge ds u))
  | _, [] => fun _ => rfl
  | ds, (k, v) :: rest => fun h => by
      rw [show compatibleStrict ds ((k, v) :: rest)
          = (compatKey ds k v && compatibleStrict (specMergeKey ds k v) rest) from rfl] at h
      simp only [Bool.and_eq_true] at h
      obtain ⟨hk, h2⟩ := h
      cases v with
      | leaf w =>
          show deepUpdate (.node (setKey ds k (.leaf w))) rest = _
          rw [show specDeepMerge ds ((k, ConfigNode.leaf w) :: rest)
              = specDeepMerge (specMergeKey ds k (.leaf w)) rest from rfl]
          rw [specMergeKey_leaf] at h2 ⊢
          exact deepUpdate_eq_specDeepMerge (setKey ds k (.leaf w)) rest h2
      | node vs =>
          rw [show compatKey ds k (.node vs)
              = (match lookupKey ds k with
                 | some (.node ds2) => compatibleStrict ds2 vs
                 | some (.leaf _) => false
                 | none => compatibleStrict [] vs && decide (specDeepMerge [] vs = vs))
              from rfl] at hk
          rw [show specDeepMerge ds ((k, ConfigNode.node vs) :: rest)
              = specDeepMerge (specMergeKey ds k (.node vs)) rest from rfl]
          cases hl : lookupKey ds k with
          | some c =>
              cases c with
              | node ds2 =>
                  rw [hl] at hk
                  have hmk : specMergeKey ds k (.node vs)
                      = setKey ds k (.node (specDeepMerge ds2 vs)) := by
                    unfold specMergeKey; rw [hl]
                  show (match deepUpdate ((lookupKey ds k).getD (.node [])) vs with
                        | .error e => Except.error e
                        | .ok m => deepUpdate (.node (setKey ds k m)) rest) = _
                  rw [hl]
                  show (match deepUpdate (.node ds2) vs with
                        | .error e => Except.error e
                        | .ok m => deepUpdate (.node (setKey ds k m)) rest) = _
                  rw [deepUpdate_eq_specDeepMerge ds2 vs hk]
                  show deepUpdate (.node (setKey ds k (.node (specDeepMerge ds2 vs)))) rest = _
                  rw [hmk] at h2 ⊢
                  exact deepUpdate_eq_specDeepMerge
                    (setKey ds k (.node (specDeepMerge ds2 vs))) rest h2
              | leaf w =>
                  rw [hl] at hk
                  simp at hk
          | none =>
              rw [hl] at hk
              simp only [Bool.and_eq_true] at hk
              obtain ⟨h1, heq⟩ := hk
              have heq' : specDeepMerge [] vs = vs := of_decide_eq_true heq
              have hmk : specMergeKey ds k (.node vs) = setKey ds k (.node vs) := by
                unfold specMergeKey; rw [hl]
              show (match deepUpdate ((lookupKey ds k).getD (.node [])) vs with
                    | .error e => Except.error e
                    | .ok m => deepUpdate (.node (setKey ds k m)) rest) = _
              rw [hl]
              show (match deepUpdate (.node []) vs with
                    | .error e => Except.error e
                    | .ok m => deepUpdate (.node (setKey ds k m)) rest) = _
              rw [deepUpdate_eq_specDeepMerge [] vs h1, heq']
              show deepUpdate (.node (setKey ds k (.node vs))) rest = _
              rw [hmk] at h2 ⊢
              exact deepUpdate_eq_specDeepMerge (setKey ds k (.node vs)) rest h2

/-- C5 counterexample: the claim's merge policy says a type-mismatched key
is overwritten outright by the overlay value, but `compose_config` on `exM`
(a mapping-at-`a` delta over a scalar-at-`a` base) fails instead of
producing the overwrite that the spec-worded merge yields; and an *empty*
mapping overlay over a scalar keeps the scalar rather than overwriting. -/
theorem claim_C5_counterexample :
    exM.composeConfig = .error () ∧
    specDeepMerge exMroot.config [("a", .node [("b", .leaf (.vInt 2))])]
      = [("a", ConfigNode.node [("b", ConfigNode.leaf (Val.vInt 2))])] ∧
    deepUpdate (.node [("a", ConfigNode.leaf (Val.vInt 1))]) [("a", ConfigNode.node [])]
      = .ok (.node [("a", ConfigNode.leaf (Val.vInt 1))]) :=
  ⟨rfl, rfl, rfl⟩

/-- C5 (amended): `compose_config` recursively composes the base first (a
root returns its own config) and deep-merges the delta on top, where a key
whose existing and overlay values are both mappings is merged recursively
and a non-mapping overlay value overwrites outright; but a *mapping* overlay
landing on a non-mapping value is not overwritten: the call fails (non-empty
overlay) or keeps the existing value (empty overlay).  On the mismatch-free
domain (`compatibleStrict`) the code's merge equals the spec's policy. -/
theorem claim_C5_amended (ds : Entries) (u : List (String × ConfigNode))
    (h : compatibleStrict ds u = true) (f : PresetFields) (b : Preset) (bc : Entries)
    (hb : b.composeConfig = .ok bc) (hc : compatibleStrict bc f.data.config = true) :
    deepUpdate (.node ds) u = .ok (.node (specDeepMerge ds u)) ∧
    Preset.composeConfig (.mk f none) = .ok f.data.config ∧
    Preset.composeConfig (.mk f (some b)) = .ok (specDeepMerge bc f.data.config) := by
  refine ⟨deepUpdate_eq_specDeepMerge ds u h, rfl, ?_⟩
  show (match b.composeConfig with
        | .error e => Except.error e
        | .ok baseCfg =>
            match deepUpdate (.node baseCfg) f.data.config with
            | .ok (.node es) => Except.ok es
            | .ok (.leaf _) => Except.error ()
            | .error e => Except.error e) = _
  rw [hb]
  show (match deepUpdate (.node bc) f.data.config with
        | .ok (.node es) => Except.ok es
        | .ok (.leaf _) => Except.error ()
        | .error e => Except.error e) = _
  rw [deepUpdate_eq_specDeepMerge bc f.data.config hc]

/-- Witness for the amended C5: a mapping-over-mapping override composes to
the recursive union, matching the spec merge. -/
theorem claim_C5_witness :
    deepUpdate (.node [("a", .node [("x", .leaf (.vInt 1))])])
        [("a", .node [("b", .leaf (.vInt 2))])]
      = .ok (.node [("a", .node [("x", .leaf (.vInt 1)), ("b", .leaf (.vInt 2))])]) ∧
    exN.composeConfig
      = .ok [("a", ConfigNode.node [("x", ConfigNode.leaf (Val.vInt 1)),
          ("b", ConfigNode.leaf (Val.vInt 2))])] := by
  have h := claim_C5_amended [("a", .node [("x", .leaf (.vInt 1))])]
    [("a", .node [("b", .leaf (.vInt 2))])] rfl exN.fields exNroot
    [("a", .node [("x", .leaf (.vInt 1))])] rfl rfl
  exact ⟨h.1.trans rfl, h.2.2.trans rfl⟩

/-! ## Diff-engine lemmas: deletion and path navigation -/

theorem getPath_node_cons (es : Entries) (a : String) (qs : List String) :
    getPath (.node es) (a :: qs)
      = match lookupKey es a with
        | some c => getPath c qs
        | none => none := rfl

theorem lookupKey_removeKey (es : Entries) (k : String) :
    lookupKey (removeKey es k) k = none := by
  induction es with
  | nil => rfl
  | cons e rest ih =>
      obtain ⟨k', v⟩ := e
      by_cases h : k' = k
      · simpa [removeKey, h] using ih
      · simpa [removeKey, lookupKey, h] using ih

theorem lookupKey_cons (k' : String) (v : ConfigNode) (rest : Entries) (a : String) :
    lookupKey ((k', v) :: rest) a
      = if k' = a then some v else lookupKey rest a := rfl

theorem lookupKey_removeKey_ne (es : Entries) (k a : String) (h : a ≠ k) :
    lookupKey (removeKey es k) a = lookupKey es a := by
  induction es with
  | nil => rfl
  | cons e rest ih =>
      obtain ⟨k', v⟩ := e
      show lookupKey (if k' = k then removeKey rest k else (k', v) :: removeKey rest k) a
          = if k' = a then some v else lookupKey rest a
      by_cases h1 : k' = k
      · rw [if_pos h1, ih, if_neg (show ¬ k' = a from fun hh => h (hh ▸ h1))]
      · rw [if_neg h1, lookupKey_cons]
        by_cases h2 : k' = a
        · rw [if_pos h2, if_pos h2]
        · rw [if_neg h2, if_neg h2, ih]

theorem lookupKey_keymap (es : Entries) (g : String × ConfigNode → ConfigNode) (a : String) :
    lookupKey (es.map (fun p => (p.1, g p))) a
      = (lookupKey es a).map (fun c => g (a, c)) := by
  induction es with
  | nil => rfl
  | cons e rest ih =>
      obtain ⟨k', v⟩ := e
      show lookupKey ((k', g (k', v)) :: rest.map (fun p => (p.1, g p))) a = _
      rw [lookupKey_cons, lookupKey_cons]
      by_cases h : k' = a
      · subst h
        rw [if_pos rfl, if_pos rfl]
        rfl
      · rw [if_neg h, if_neg h, ih]

theorem deleteAt_cons_eq_map (es : Entries) (k k2 : String) (ks : List String) :
    deleteAt es (k :: k2 :: ks) = es.map (fun p =>
      (p.1, if p.1 = k then
              (match p.2 with
               | ConfigNode.node cs => ConfigNode.node (deleteAt cs (k2 :: ks))
               | c => c)
            else p.2)) := by
  show es.map _ = es.map _
  apply List.map_congr_left
  intro p _
  obtain ⟨k1, c1⟩ := p
  dsimp only
  by_cases h : k1 = k
  · rw [if_pos h, if_pos h]
    cases c1 <;> rfl
  · rw [if_neg h, if_neg h]

theorem lookupKey_deleteAt_cons (es : Entries) (k k2 a : String) (ks : List String) :
    lookupKey (deleteAt es (k :: k2 :: ks)) a
      = if a = k then
          (lookupKey es a).map (fun c =>
            match c with
            | .node cs => ConfigNode.node (deleteAt cs (k2 :: ks))
            | c => c)
        else lookupKey es a := by
  rw [deleteAt_cons_eq_map, lookupKey_keymap]
  by_cases h : a = k
  · rw [if_pos h]
    subst h
    apply Option.map_congr
    intro c _
    rw [if_pos rfl]
  · rw [if_neg h]
    cases lookupKey es a with
    | none => rfl
    | some c =>
        show some (if a = k then _ else c) = some c
        rw [if_neg h]

theorem getPath_append (q : List String) (c : ConfigNode) (r : List String) :
    getPath c (q ++ r) = (getPath c q).bind (fun c2 => getPath c2 r) := by
  induction q generalizing c with
  | nil => cases c <;> rfl
  | cons a qs ih =>
      cases c with
      | leaf w => rfl
      | node es =>
          show (match lookupKey es a with
                | some c2 => getPath c2 (qs ++ r)
                | none => none) = _
          cases hl : lookupKey es a with
          | some c2 => simpa [getPath_node_cons, hl] using ih c2
          | none => simp [getPath_node_cons, hl]

theorem getAt_eq_getPath (ks : List String) (es : Entries) (h : ks ≠ []) :
    getAt es ks = getPath (.node es) ks := by
  induction ks generalizing es with
  | nil => exact absurd rfl h
  | cons a ks ih =>
      cases ks with
      | nil =>
          show lookupKey es a = _
          rw [getPath_node_cons]
          cases hl : lookupKey es a with
          | none => rfl
          | some c => cases c <;> rfl
      | cons a2 ks2 =>
          show (match lookupKey es a with
                | some (.node cs) => getAt cs (a2 :: ks2)
                | _ => none) = _
          rw [getPath_node_cons]
          cases hl : lookupKey es a with
          | none => rfl
          | some c =>
              cases c with
              | leaf w => rfl
              | node cs => exact ih cs (by simp)

theorem deleteAt_self :
    ∀ (ks : List String) (cfg : Entries), ks ≠ [] →
      getPath (.node (deleteAt cfg ks)) ks = none
  | [], _, h => absurd rfl h
  | [k], cfg, _ => by
      rw [show deleteAt cfg [k] = removeKey cfg k from rfl]
      rw [getPath_node_cons, lookupKey_removeKey]
  | k :: k2 :: ks, cfg, _ => by
      rw [getPath_node_cons, lookupKey_deleteAt_cons, if_pos rfl]
      cases hl : lookupKey cfg k with
      | none => rfl
      | some c =>
          cases c with
          | node cs =>
              show getPath (.node (deleteAt cs (k2 :: ks))) (k2 :: ks) = none
              exact deleteAt_self (k2 :: ks) cs (by simp)
          | leaf w => rfl

theorem deleteAt_no_new_leaf :
    ∀ (ks : List String) (cfg : Entries) (q : List String) (v : Val),
      getPath (.node (deleteAt cfg ks)) q = some (.leaf v) →
      getPath (.node cfg) q = some (.leaf v)
  | [], _, _, _ => fun h => h
  | [k], cfg, q, v => by
      intro h
      rw [show deleteAt cfg [k] = removeKey cfg k from rfl] at h
      cases q with
      | nil => simp [getPath] at h
      | cons a qs =>
          rw [getPath_node_cons] at h ⊢
          by_cases hak : a = k
          · subst hak
            rw [lookupKey_removeKey] at h
            exact absurd h (by simp)
          · rw [lookupKey_removeKey_ne cfg k a hak] at h
            exact h
  | k :: k2 :: ks, cfg, q, v => by
      intro h
      cases q with
      | nil => simp [getPath] at h
      | cons a qs =>
          rw [getPath_node_cons] at h ⊢
          rw [lookupKey_deleteAt_cons] at h
          by_cases hak : a = k
          · rw [if_pos hak] at h
            cases hl : lookupKey cfg a with
            | none => rw [hl] at h; exact absurd h (by simp)
            | some c =>
                rw [hl] at h
                cases c with
                | node cs =>
                    have h2 : getPath (.node (deleteAt cs (k2 :: ks))) qs
                        = some (.leaf v) := h
                    exact deleteAt_no_new_leaf (k2 :: ks) cs qs v h2
                | leaf w => exact h
          · rw [if_neg hak] at h
            exact h

theorem deleteAt_preserve_leaf :
    ∀ (ks : List String) (cfg : Entries) (p : List String) (v : Val),
      getPath (.node cfg) p = some (.leaf v) → ¬ (ks <+: p) →
      getPath (.node (deleteAt cfg ks)) p = some (.leaf v)
  | [], _, p, _ => fun _ hn => absurd List.nil_prefix hn
  | [k], cfg, p, v => by
      intro h hn
      rw [show deleteAt cfg [k] = removeKey cfg k from rfl]
      cases p with
      | nil => simp [getPath] at h
      | cons a qs =>
          rw [getPath_node_cons] at h ⊢
          by_cases hak : k = a
          · subst hak
            exact absurd ⟨qs, rfl⟩ hn
          · rw [lookupKey_removeKey_ne cfg k a (fun hh => hak hh.symm)]
            exact h
  | k :: k2 :: ks, cfg, p, v => by
      intro h hn
      cases p with
      | nil => simp [getPath] at h
      | cons a qs =>
          rw [getPath_node_cons] at h ⊢
          rw [lookupKey_deleteAt_cons]
          by_cases hak : a = k
          · rw [if_pos hak]
            subst hak
            cases hl : lookupKey cfg a with
            | none => rw [hl] at h; exact absurd h (by simp)
            | some c =>
                rw [hl] at h
                cases c with
                | node cs =>
                    show getPath (.node (deleteAt cs (k2 :: ks))) qs = some (.leaf v)
                    refine deleteAt_preserve_leaf (k2 :: ks) cs qs v h ?_
                    intro hpre
                    exact hn (by
                      obtain ⟨t, ht⟩ := hpre
                      exact ⟨t, by rw [← ht]; rfl⟩)
                | leaf w => exact h
          · rw [if_neg hak]
            exact h

theorem pruneLoop_no_new_leaf :
    ∀ (fuel : Nat) (cfg : Entries) (js q : List String) (v : Val),
      getPath (.node (pruneLoop fuel cfg js)) q = some (.leaf v) →
      getPath (.node cfg) q = some (.leaf v) := by
  intro fuel
  induction fuel with
  | zero => intro cfg js q v h; exact h
  | succ fuel ih =>
      intro cfg js q v h
      cases js with
      | nil => exact h
      | cons j js2 =>
          unfold pruneLoop at h
          split at h
          · exact deleteAt_no_new_leaf _ _ _ _ (ih _ _ _ _ h)
          · exact h

theorem pruneLoop_preserve_leaf :
    ∀ (fuel : Nat) (cfg : Entries) (js p : List String) (v : Val),
      getPath (.node cfg) p = some (.leaf v) →
      getPath (.node (pruneLoop fuel cfg js)) p = some (.leaf v) := by
  intro fuel
  induction fuel with
  | zero => intro cfg js p v h; exact h
  | succ fuel ih =>
      intro cfg js p v h
      cases js with
      | nil => exact h
      | cons j js2 =>
          unfold pruneLoop
          split
          · next heq =>
              apply ih
              apply deleteAt_preserve_leaf _ _ _ _ h
              intro hpre
              obtain ⟨r, hr⟩ := hpre
              rw [getAt_eq_getPath _ _ (by simp)] at heq
              rw [← hr, getPath_append, heq] at h
              cases r with
              | nil =>
                  have h' : (some (ConfigNode.node ([] : Entries)) : Option ConfigNode)
                      = some (.leaf v) := h
                  simp at h'
              | cons x r2 => simp [getPath_node_cons, lookupKey] at h
          · exact h

theorem diffStep_removes (cfg : Entries) (ks : List String) (v : Val) (hks : ks ≠ []) :
    getPath (.node (diffStep cfg ks)) ks ≠ some (.leaf v) := by
  intro h
  rw [show diffStep cfg ks
      = pruneLoop ks.dropLast.length (deleteAt cfg ks) ks.dropLast from rfl] at h
  have h2 := pruneLoop_no_new_leaf _ _ _ _ _ h
  rw [deleteAt_self ks cfg hks] at h2
  exact Option.noConfusion h2

theorem diffStep_no_new_leaf (cfg : Entries) (ks q : List String) (v : Val)
    (h : getPath (.node (diffStep cfg ks)) q = some (.leaf v)) :
    getPath (.node cfg) q = some (.leaf v) := by
  rw [show diffStep cfg ks
      = pruneLoop ks.dropLast.length (deleteAt cfg ks) ks.dropLast from rfl] at h
  exact deleteAt_no_new_leaf _ _ _ _ (pruneLoop_no_new_leaf _ _ _ _ _ h)

theorem diffStep_preserve_leaf (cfg : Entries) (ks p : List String) (v : Val)
    (h : getPath (.node cfg) p = some (.leaf v)) (hn : ¬ (ks <+: p)) :
    getPath (.node (diffStep cfg ks)) p = some (.leaf v) := by
  rw [show diffStep cfg ks
      = pruneLoop ks.dropLast.length (deleteAt cfg ks) ks.dropLast from rfl]
  exact pruneLoop_preserve_leaf _ _ _ _ _ (deleteAt_preserve_leaf _ _ _ _ h hn)

/-! ## Diff-engine lemmas: flattening -/

theorem lookupFlat_cons (q : List String) (u : Val) (rest : List (List String × Val))
    (p : List String) :
    lookupFlat ((q, u) :: rest) p = if q = p then some u else lookupFlat rest p := rfl

theorem lookupFlat_append (L1 L2 : List (List String × Val)) (p : List String) :
    lookupFlat (L1 ++ L2) p
      = match lookupFlat L1 p with
        | some v => some v
        | none => lookupFlat L2 p := by
  induction L1 with
  | nil => rfl
  | cons r rest ih =>
      obtain ⟨q, u⟩ := r
      show lookupFlat ((q, u) :: (rest ++ L2)) p = _
      rw [lookupFlat_cons, lookupFlat_cons]
      by_cases h : q = p
      · rw [if_pos h, if_pos h]
      · rw [if_neg h, if_neg h, ih]

theorem lookupFlat_map_cons (L : List (List String × Val)) (k : String) (qs : List String) :
    lookupFlat (L.map (fun r => (k :: r.1, r.2))) (k :: qs) = lookupFlat L qs := by
  induction L with
  | nil => rfl
  | cons r rest ih =>
      obtain ⟨q, u⟩ := r
      show lookupFlat ((k :: q, u) :: rest.map (fun r => (k :: r.1, r.2))) (k :: qs) = _
      rw [lookupFlat_cons, lookupFlat_cons]
      by_cases h : q = qs
      · rw [if_pos (by rw [h]), if_pos h]
      · rw [if_neg (by simp [h]), if_neg h, ih]

theorem lookupFlat_map_cons_ne (L : List (List String × Val)) (k a : String)
    (qs : List String) (h : a ≠ k) :
    lookupFlat (L.map (fun r => (k :: r.1, r.2))) (a :: qs) = none := by
  induction L with
  | nil => rfl
  | cons r rest ih =>
      obtain ⟨q, u⟩ := r
      show lookupFlat ((k :: q, u) :: rest.map (fun r => (k :: r.1, r.2))) (a :: qs) = _
      rw [lookupFlat_cons]
      rw [if_neg (fun hh => h (by injection hh with h1 _; exact h1.symm)), ih]

theorem lookupFlat_mem (L : List (List String × Val)) (p : List String) (v : Val)
    (h : lookupFlat L p = some v) : (p, v) ∈ L := by
  induction L with
  | nil => simp [lookupFlat] at h
  | cons r rest ih =>
      obtain ⟨q, u⟩ := r
      rw [lookupFlat_cons] at h
      by_cases hq : q = p
      · rw [if_pos hq] at h
        injection h with h1
        subst hq
        rw [← h1]
        exact List.mem_cons_self _ _
      · rw [if_neg hq] at h
        exact List.mem_cons_of_mem _ (ih h)

theorem getPath_leaf_lookupFlat :
    ∀ (p : List String) (cfg : Entries) (v : Val),
      getPath (.node cfg) p = some (.leaf v) →
      lookupFlat (flattenEntries cfg) p = some v
  | [], cfg, v => by
      intro h
      have h' : (some (ConfigNode.node cfg) : Option ConfigNode) = some (.leaf v) := h
      simp at h'
  | a :: qs, cfg, v => by
      induction cfg with
      | nil =>
          intro h
          rw [getPath_node_cons] at h
          exact absurd h (by simp [lookupKey])
      | cons e rest ih =>
          intro h
          obtain ⟨k', c⟩ := e
          rw [getPath_node_cons, lookupKey_cons] at h
          rw [show flattenEntries ((k', c) :: rest)
              = (flattenNode c).map (fun r => (k' :: r.1, r.2)) ++ flattenEntries rest
              from rfl]
          rw [lookupFlat_append]
          by_cases hk : k' = a
          · subst hk
            rw [if_pos rfl] at h
            cases c with
            | leaf w =>
                cases qs with
                | nil =>
                    have h' : (some (ConfigNode.leaf w) : Option ConfigNode)
                        = some (.leaf v) := h
                    have hw : w = v := by
                      injection h' with h1
                      injection h1
                    subst hw
                    rw [show (flattenNode (ConfigNode.leaf w)).map
                          (fun r => (k' :: r.1, r.2)) = [([k'], w)] from rfl]
                    rw [show lookupFlat [([k'], w)] [k'] = some w from by
                      rw [lookupFlat_cons, if_pos rfl]]
                | cons x r =>
                    have h' : (none : Option ConfigNode) = some (ConfigNode.leaf v) := h
                    simp at h'
            | node cs =>
                have h2 := getPath_leaf_lookupFlat qs cs v h
                rw [show flattenNode (ConfigNode.node cs) = flattenEntries cs from rfl]
                rw [lookupFlat_map_cons, h2]
          · rw [if_neg hk] at h
            rw [lookupFlat_map_cons_ne _ _ _ _ (fun hh => hk hh.symm)]
            exact ih h

/-! ## Diff-engine lemmas: the deletion fold of `diff_config` -/

theorem foldl_diff_no_new_leaf (old : Entries) :
    ∀ (L : List (List String × Val)) (cfg : Entries) (q : List String) (v : Val),
      getPath (.node (L.foldl (fun cfg kv =>
          match lookupFlat (flattenEntries old) kv.1 with
          | some ov => if ov = kv.2 then diffStep cfg kv.1 else cfg
          | none => cfg) cfg)) q = some (.leaf v) →
      getPath (.node cfg) q = some (.leaf v) := by
  intro L
  induction L with
  | nil => intro cfg q v h; exact h
  | cons kv rest ih =>
      intro cfg q v h
      rw [List.foldl_cons] at h
      have h2 := ih _ _ _ h
      revert h2
      cases hl : lookupFlat (flattenEntries old) kv.1 with
      | none => intro h2; exact h2
      | some ov =>
          intro h2
          have h3 : getPath (.node (if ov = kv.2 then diffStep cfg kv.1 else cfg)) q
              = some (.leaf v) := h2
          by_cases he : ov = kv.2
          · rw [if_pos he] at h3
            exact diffStep_no_new_leaf _ _ _ _ h3
          · rw [if_neg he] at h3
            exact h3

theorem foldl_diff_removes (old : Entries) :
    ∀ (L : List (List String × Val)) (cfg : Entries) (p : List String) (v w : Val),
      (p, v) ∈ L → lookupFlat (flattenEntries old) p = some v → p ≠ [] →
      getPath (.node (L.foldl (fun cfg kv =>
          match lookupFlat (flattenEntries old) kv.1 with
          | some ov => if ov = kv.2 then diffStep cfg kv.1 else cfg
          | none => cfg) cfg)) p ≠ some (.leaf w) := by
  intro L
  induction L with
  | nil => intro cfg p v w hmem; exact absurd hmem (by simp)
  | cons kv rest ih =>
      intro cfg p v w hmem hold hne h
      rw [List.foldl_cons] at h
      rcases List.mem_cons.mp hmem with hh | hh
      · obtain ⟨q, u⟩ := kv
        have hp : p = q := congrArg Prod.fst hh
        have hv : v = u := congrArg Prod.snd hh
        subst hp; subst hv
        have h' : getPath (.node (rest.foldl (fun cfg kv =>
            match lookupFlat (flattenEntries old) kv.1 with
            | some ov => if ov = kv.2 then diffStep cfg kv.1 else cfg
            | none => cfg)
            (match lookupFlat (flattenEntries old) p with
             | some ov => if ov = v then diffStep cfg p else cfg
             | none => cfg))) p = some (.leaf w) := h
        rw [hold] at h'
        have h'' : getPath (.node (rest.foldl (fun cfg kv =>
            match lookupFlat (flattenEntries old) kv.1 with
            | some ov => if ov = kv.2 then diffStep cfg kv.1 else cfg
            | none => cfg)
            (if v = v then diffStep cfg p else cfg))) p = some (.leaf w) := h'
        rw [if_pos rfl] at h''
        have h2 := foldl_diff_no_new_leaf old rest (diffStep cfg p) p w h''
        exact diffStep_removes cfg p w hne h2
      · exact ih _ p v w hh hold hne h

/-! ## Claim theorems: delta minimality -/

/-- C2 counterexample: `exB` is constructed against base `exA` (itself
derived from `exRoot`), and its stored delta still holds `x = 1` although
`x` resolves to the identical value `1` through the full ancestor chain
(the diff only compares against the immediate base's own *delta*, which
lacks `x`). -/
theorem claim_C2_counterexample :
    exB.config = [("x", ConfigNode.leaf (Val.vInt 1))] ∧
    exA.getValue "x" .tInt = .ok (.vInt 1) :=
  ⟨rfl, rfl⟩

/-- C2 (amended): construction strips from the candidate every entry whose
value is identical to the value stored at the same path in the *immediate
base's own stored config*: the new preset's delta never shares a path-value
pair with the base's stored config. -/
theorem claim_C2_amended (b : Preset) (file : Option String) (raw : RawData)
    (p : List String) (v : Val)
    (hnew : getPath (.node (Preset.setData (some b) file raw).config) p
        = some (.leaf v)) :
    getPath (.node b.config) p ≠ some (.leaf v) := by
  intro hbase
  have hnew2 : getPath (.node ((flattenEntries raw.config).foldl (fun cfg kv =>
      match lookupFlat (flattenEntries b.config) kv.1 with
      | some ov => if ov = kv.2 then diffStep cfg kv.1 else cfg
      | none => cfg) raw.config)) p = some (.leaf v) := hnew
  have horig := foldl_diff_no_new_leaf b.config _ _ _ _ hnew2
  have hmem : (p, v) ∈ flattenEntries raw.config :=
    lookupFlat_mem _ _ _ (getPath_leaf_lookupFlat p raw.config v horig)
  have hold : lookupFlat (flattenEntries b.config) p = some v :=
    getPath_leaf_lookupFlat p b.config v hbase
  have hne : p ≠ [] := by
    intro hp
    subst hp
    have h' : (some (ConfigNode.node raw.config) : Option ConfigNode)
        = some (.leaf v) := horig
    simp at h'
  exact foldl_diff_removes b.config _ _ _ _ _ hmem hold hne hnew2

/-- Witness for the amended C2: `exB`'s delta keeps `x = 1` (it does not
coincide with anything in `exA`'s own delta `{y: 2}`), and indeed `exA`'s
stored config has nothing at path `x`. -/
theorem claim_C2_witness :
    getPath (.node exA.config) ["x"] ≠ some (.leaf (.vInt 1)) :=
  claim_C2_amended exA none
    { name := none, uuid := "u2", creationTime := 0
      config := [("x", .leaf (.vInt 1))], abstract := false }
    ["x"] (.vInt 1) rfl

/-! ## Well-formedness and merge lemmas -/

theorem cons_prefix_decomp {q : List String} {a : String} {qs : List String}
    (h : q <+: a :: qs) : q = [] ∨ ∃ q', q = a :: q' ∧ q' <+: qs := by
  cases q with
  | nil => exact Or.inl rfl
  | cons b q' =>
      obtain ⟨t, ht⟩ := h
      injection ht with h1 h2
      exact Or.inr ⟨q', by rw [h1], ⟨t, h2⟩⟩

theorem cons_prefix_build {q' : List String} (a : String) {qs : List String}
    (h : q' <+: qs) : (a :: q') <+: (a :: qs) := by
  obtain ⟨t, ht⟩ := h
  exact ⟨t, by rw [← ht]; rfl⟩

theorem lookupKey_setKey_self (es : Entries) (k : String) (v : ConfigNode) :
    lookupKey (setKey es k v) k = some v := by
  induction es with
  | nil => simp [setKey, lookupKey]
  | cons e rest ih =>
      obtain ⟨k', w⟩ := e
      show lookupKey (if k' = k then (k, v) :: rest else (k', w) :: setKey rest k v) k = _
      by_cases h : k' = k
      · rw [if_pos h, lookupKey_cons, if_pos rfl]
      · rw [if_neg h, lookupKey_cons, if_neg h, ih]

theorem lookupKey_setKey_ne (es : Entries) (k a : String) (v : ConfigNode) (h : a ≠ k) :
    lookupKey (setKey es k v) a = lookupKey es a := by
  induction es with
  | nil =>
      show lookupKey [(k, v)] a = lookupKey [] a
      rw [lookupKey_cons, if_neg (fun hh => h hh.symm)]
  | cons e rest ih =>
      obtain ⟨k', w⟩ := e
      show lookupKey (if k' = k then (k, v) :: rest else (k', w) :: setKey rest k v) a = _
      by_cases h1 : k' = k
      · rw [if_pos h1, lookupKey_cons, lookupKey_cons,
          if_neg (fun hh : k = a => h hh.symm), if_neg (fun hh : k' = a => h (h1 ▸ hh).symm)]
      · rw [if_neg h1, lookupKey_cons, lookupKey_cons]
        by_cases h2 : k' = a
        · rw [if_pos h2, if_pos h2]
        · rw [if_neg h2, if_neg h2, ih]

theorem lookup_eq_none_of_any_eq_false (es : Entries) (a : String)
    (h : es.any (fun p => p.1 == a) = false) : lookupKey es a = none := by
  induction es with
  | nil => rfl
  | cons e rest ih =>
      obtain ⟨k', v⟩ := e
      simp only [List.any_cons, Bool.or_eq_false_iff] at h
      rw [lookupKey_cons, if_neg (by simpa using h.1)]
      exact ih h.2

theorem mem_flatten_shape :
    ∀ (cfg : Entries) (p : List String) (u : Val),
      (p, u) ∈ flattenEntries cfg → ∃ a t, p = a :: t
  | [], p, u => by
      intro hm
      exact absurd hm (by simp [flattenEntries])
  | (k', c) :: rest, p, u => by
      intro hm
      rw [show flattenEntries ((k', c) :: rest)
          = (flattenNode c).map (fun r => (k' :: r.1, r.2)) ++ flattenEntries rest
          from rfl] at hm
      rcases List.mem_append.mp hm with hb | hr
      · obtain ⟨r0, _, heq⟩ := List.mem_map.mp hb
        exact ⟨k', r0.1, (congrArg Prod.fst heq).symm⟩
      · exact mem_flatten_shape rest p u hr

theorem mem_flatten_head_key :
    ∀ (cfg : Entries) (a : String) (t : List String) (u : Val),
      (a :: t, u) ∈ flattenEntries cfg → cfg.any (fun p => p.1 == a) = true
  | [], a, t, u => by
      intro hm
      exact absurd hm (by simp [flattenEntries])
  | (k', c) :: rest, a, t, u => by
      intro hm
      rw [show flattenEntries ((k', c) :: rest)
          = (flattenNode c).map (fun r => (k' :: r.1, r.2)) ++ flattenEntries rest
          from rfl] at hm
      simp only [List.any_cons, Bool.or_eq_true]
      rcases List.mem_append.mp hm with hb | hr
      · obtain ⟨r0, _, heq⟩ := List.mem_map.mp hb
        have hk : k' = a := by
          have := congrArg Prod.fst heq
          injection this
        exact Or.inl (by simp [hk])
      · exact Or.inr (mem_flatten_head_key rest a t u hr)

theorem wf_lookup (es : Entries) (a : String) (c : ConfigNode)
    (hwf : wfEntries es = true) (h : lookupKey es a = some c) : wfNode c = true := by
  induction es with
  | nil => simp [lookupKey] at h
  | cons e rest ih =>
      obtain ⟨k', v⟩ := e
      rw [show wfEntries ((k', v) :: rest)
          = (!(rest.any (fun p => p.1 == k')) && wfNode v && wfEntries rest) from rfl] at hwf
      simp only [Bool.and_eq_true] at hwf
      rw [lookupKey_cons] at h
      by_cases hk : k' = a
      · rw [if_pos hk] at h
        injection h with h1
        rw [← h1]
        exact hwf.1.2
      · rw [if_neg hk] at h
        exact ih hwf.2 h

theorem flatten_mem_getPath :
    ∀ (cfg : Entries) (p : List String) (u : Val),
      wfEntries cfg = true → (p, u) ∈ flattenEntries cfg →
      getPath (.node cfg) p = some (.leaf u)
  | [], p, u => by
      intro _ hm
      exact absurd hm (by simp [flattenEntries])
  | (k', c) :: rest, p, u => by
      intro hwf hm
      rw [show wfEntries ((k', c) :: rest)
          = (!(rest.any (fun q => q.1 == k')) && wfNode c && wfEntries rest) from rfl] at hwf
      simp only [Bool.and_eq_true] at hwf
      rw [show flattenEntries ((k', c) :: rest)
          = (flattenNode c).map (fun r => (k' :: r.1, r.2)) ++ flattenEntries rest
          from rfl] at hm
      rcases List.mem_append.mp hm with hb | hr
      · obtain ⟨r0, hr0, heq⟩ := List.mem_map.mp hb
        obtain ⟨t0, u0⟩ := r0
        have hp : p = k' :: t0 := (congrArg Prod.fst heq).symm
        have hu : u = u0 := (congrArg Prod.snd heq).symm
        subst hp
        subst hu
        rw [getPath_node_cons, lookupKey_cons, if_pos rfl]
        cases c with
        | leaf w =>
            have hr0' : (t0, u) ∈ [(([] : List String), w)] := hr0
            simp only [List.mem_singleton, Prod.mk.injEq] at hr0'
            rw [hr0'.1, ← hr0'.2]
            rfl
        | node cs =>
            exact flatten_mem_getPath cs t0 u hwf.1.2 hr0
      · obtain ⟨a, t, hp⟩ := mem_flatten_shape rest p u hr
        subst hp
        have hkey := mem_flatten_head_key rest a t u hr
        have hne : k' ≠ a := by
          intro hh
          rw [hh] at hwf
          rw [hkey] at hwf
          simp at hwf
        rw [getPath_node_cons, lookupKey_cons, if_neg hne]
        have h2 := flatten_mem_getPath rest (a :: t) u hwf.2 hr
        rw [getPath_node_cons] at h2
        exact h2

theorem any_setKey (es : Entries) (k a : String) (v : ConfigNode) (h : a ≠ k) :
    (setKey es k v).any (fun p => p.1 == a) = es.any (fun p => p.1 == a) := by
  induction es with
  | nil =>
      show [(k, v)].any (fun p => p.1 == a) = false
      simp
      exact fun hh => h hh.symm
  | cons e rest ih =>
      obtain ⟨k', w⟩ := e
      show (if k' = k then (k, v) :: rest else (k', w) :: setKey rest k v).any
          (fun p => p.1 == a) = _
      by_cases h1 : k' = k
      · rw [if_pos h1]
        simp only [List.any_cons]
        rw [show (k == a) = (k' == a) from by rw [h1]]
      · rw [if_neg h1]
        simp only [List.any_cons, ih]

theorem wf_setKey (es : Entries) (k : String) (v : ConfigNode)
    (hwf : wfEntries es = true) (hv : wfNode v = true) :
    wfEntries (setKey es k v) = true := by
  induction es with
  | nil =>
      show wfEntries [(k, v)] = true
      simp [wfEntries, hv]
  | cons e rest ih =>
      obtain ⟨k', w⟩ := e
      rw [show wfEntries ((k', w) :: rest)
          = (!(rest.any (fun q => q.1 == k')) && wfNode w && wfEntries rest) from rfl] at hwf
      simp only [Bool.and_eq_true] at hwf
      show wfEntries (if k' = k then (k, v) :: rest else (k', w) :: setKey rest k v) = true
      by_cases h1 : k' = k
      · rw [if_pos h1]
        rw [show wfEntries ((k, v) :: rest)
            = (!(rest.any (fun q => q.1 == k)) && wfNode v && wfEntries rest) from rfl]
        simp only [Bool.and_eq_true]
        exact ⟨⟨by rw [← h1]; exact hwf.1.1, hv⟩, hwf.2⟩
      · rw [if_neg h1]
        rw [show wfEntries ((k', w) :: setKey rest k v)
            = (!((setKey rest k v).any (fun q => q.1 == k')) && wfNode w
              && wfEntries (setKey rest k v)) from rfl]
        simp only [Bool.and_eq_true]
        refine ⟨⟨?_, hwf.1.2⟩, ih hwf.2⟩
        rw [any_setKey rest k k' v (fun hh => h1 hh)]
        exact hwf.1.1

theorem specMergeKey_node (ds : Entries) (k : String) (vs : List (String × ConfigNode)) :
    specMergeKey ds k (.node vs)
      = match lookupKey ds k with
        | some (.node ds2) => setKey ds k (.node (specDeepMerge ds2 vs))
        | _ => setKey ds k (.node vs) := by
  unfold specMergeKey
  cases hl : lookupKey ds k with
  | none => rfl
  | some c => cases c <;> rfl

theorem wf_specDeepMerge :
    ∀ (us : List (String × ConfigNode)) (ds : Entries),
      wfEntries ds = true → wfEntries us = true →
      wfEntries (specDeepMerge ds us) = true
  | [], _ => fun h _ => h
  | (k, v) :: rest, ds => fun hds hus => by
      rw [show wfEntries ((k, v) :: rest)
          = (!(rest.any (fun q => q.1 == k)) && wfNode v && wfEntries rest) from rfl] at hus
      simp only [Bool.and_eq_true] at hus
      show wfEntries (specDeepMerge (specMergeKey ds k v) rest) = true
      refine wf_specDeepMerge rest (specMergeKey ds k v) ?_ hus.2
      cases v with
      | leaf w =>
          rw [specMergeKey_leaf]
          exact wf_setKey ds k (.leaf w) hds rfl
      | node vs =>
          rw [specMergeKey_node]
          cases hl : lookupKey ds k with
          | none => exact wf_setKey ds k (.node vs) hds hus.1.2
          | some c =>
              cases c with
              | leaf w => exact wf_setKey ds k (.node vs) hds hus.1.2
              | node ds2 =>
                  refine wf_setKey ds k (.node (specDeepMerge ds2 vs)) hds ?_
                  show wfEntries (specDeepMerge ds2 vs) = true
                  exact wf_specDeepMerge vs ds2 (wf_lookup ds k (.node ds2) hds hl) hus.1.2

theorem specDeepMerge_lookup :
    ∀ (us : List (String × ConfigNode)) (ds : Entries) (a : String),
      wfEntries us = true →
      lookupKey (specDeepMerge ds us) a
        = match lookupKey us a with
          | none => lookupKey ds a
          | some (.leaf w) => some (.leaf w)
          | some (.node vs) =>
              some (match lookupKey ds a with
                    | some (.node ds2) => ConfigNode.node (specDeepMerge ds2 vs)
                    | _ => ConfigNode.node vs)
  | [], ds, a => fun _ => rfl
  | (k, v) :: rest, ds, a => fun hwf => by
      rw [show wfEntries ((k, v) :: rest)
          = (!(rest.any (fun q => q.1 == k)) && wfNode v && wfEntries rest) from rfl] at hwf
      simp only [Bool.and_eq_true] at hwf
      show lookupKey (specDeepMerge (specMergeKey ds k v) rest) a = _
      rw [specDeepMerge_lookup rest (specMergeKey ds k v) a hwf.2]
      by_cases hak : k = a
      · subst hak
        have hrest : lookupKey rest k = none :=
          lookup_eq_none_of_any_eq_false rest k (by
            have := hwf.1.1
            simpa using this)
        rw [hrest, show lookupKey ((k, v) :: rest) k = some v from by
          rw [lookupKey_cons, if_pos rfl]]
        cases v with
        | leaf w => rw [specMergeKey_leaf, lookupKey_setKey_self]
        | node vs =>
            rw [specMergeKey_node]
            cases hl : lookupKey ds k with
            | none => rw [lookupKey_setKey_self]
            | some c =>
                cases c with
                | leaf w => rw [lookupKey_setKey_self]
                | node ds2 => rw [lookupKey_setKey_self]
      · have hmka : lookupKey (specMergeKey ds k v) a = lookupKey ds a := by
          cases v with
          | leaf w => rw [specMergeKey_leaf, lookupKey_setKey_ne _ _ _ _ (fun hh => hak hh.symm)]
          | node vs =>
              rw [specMergeKey_node]
              cases hl : lookupKey ds k with
              | none => rw [lookupKey_setKey_ne _ _ _ _ (fun hh => hak hh.symm)]
              | some c =>
                  cases c with
                  | leaf w => rw [lookupKey_setKey_ne _ _ _ _ (fun hh => hak hh.symm)]
                  | node ds2 => rw [lookupKey_setKey_ne _ _ _ _ (fun hh => hak hh.symm)]
        rw [hmka, show lookupKey ((k, v) :: rest) a = lookupKey rest a from by
          rw [lookupKey_cons, if_neg hak]]

theorem specDeepMerge_getPath :
    ∀ (p : List String) (ds us : Entries), wfEntries us = true → ∀ (v : Val),
      (getPath (.node (specDeepMerge ds us)) p = some (.leaf v) ↔
        getPath (.node us) p = some (.leaf v) ∨
        (getPath (.node ds) p = some (.leaf v) ∧ getPath (.node us) p = none ∧
          ∀ q, q <+: p → ∀ w, getPath (.node us) q ≠ some (.leaf w)))
  | [], ds, us => by
      intro _ v
      constructor
      · intro h
        exact absurd (show (some (ConfigNode.node (specDeepMerge ds us)) : Option ConfigNode)
            = some (.leaf v) from h) (by simp)
      · rintro (h | ⟨h, _, _⟩)
        · exact absurd (show (some (ConfigNode.node us) : Option ConfigNode)
              = some (.leaf v) from h) (by simp)
        · exact absurd (show (some (ConfigNode.node ds) : Option ConfigNode)
              = some (.leaf v) from h) (by simp)
  | a :: qs, ds, us => by
      intro hwf v
      rw [getPath_node_cons, specDeepMerge_lookup us ds a hwf]
      cases hu : lookupKey us a with
      | none =>
          constructor
          · intro h
            right
            refine ⟨by rw [getPath_node_cons]; exact h, by rw [getPath_node_cons, hu], ?_⟩
            intro q hq w
            rcases cons_prefix_decomp hq with hq0 | ⟨q', hq1, hq2⟩
            · subst hq0
              intro hc
              exact absurd (show (some (ConfigNode.node us) : Option ConfigNode)
                  = some (.leaf w) from hc) (by simp)
            · subst hq1
              rw [getPath_node_cons, hu]
              exact fun hc => Option.noConfusion hc
          · rintro (h | ⟨h, _, _⟩)
            · rw [getPath_node_cons, hu] at h
              exact absurd h (by simp)
            · rw [getPath_node_cons] at h
              exact h
      | some c =>
          cases c with
          | leaf w =>
              cases qs with
              | nil =>
                  constructor
                  · intro h
                    left
                    rw [getPath_node_cons, hu]
                    exact h
                  · rintro (h | ⟨h, hn, hpre⟩)
                    · rw [getPath_node_cons, hu] at h
                      exact h
                    · exfalso
                      rw [getPath_node_cons, hu] at hn
                      exact Option.noConfusion
                        (show (some (ConfigNode.leaf w) : Option ConfigNode) = none from hn)
              | cons x r =>
                  constructor
                  · intro h
                    exact absurd (show (none : Option ConfigNode)
                        = some (ConfigNode.leaf v) from h) (by simp)
                  · rintro (h | ⟨h, hn, hpre⟩)
                    · rw [getPath_node_cons, hu] at h
                      exact absurd (show (none : Option ConfigNode)
                          = some (ConfigNode.leaf v) from h) (by simp)
                    · exfalso
                      refine hpre [a] ⟨x :: r, rfl⟩ w ?_
                      rw [getPath_node_cons, hu]
                      rfl
          | node vs =>
              have hwfvs : wfEntries vs = true := wf_lookup us a (.node vs) hwf hu
              cases hd : lookupKey ds a with
              | some c2 =>
                  cases c2 with
                  | node ds2 =>
                      have ihh := specDeepMerge_getPath qs ds2 vs hwfvs v
                      constructor
                      · intro h
                        rcases ihh.mp h with h1 | ⟨h1, h2, h3⟩
                        · left
                          rw [getPath_node_cons, hu]
                          exact h1
                        · right
                          refine ⟨by rw [getPath_node_cons, hd]; exact h1,
                            by rw [getPath_node_cons, hu]; exact h2, ?_⟩
                          intro q hq w2
                          rcases cons_prefix_decomp hq with hq0 | ⟨q', hq1, hq2⟩
                          · subst hq0
                            intro hc
                            exact absurd (show (some (ConfigNode.node us) : Option ConfigNode)
                                = some (.leaf w2) from hc) (by simp)
                          · subst hq1
                            rw [getPath_node_cons, hu]
                            exact h3 q' hq2 w2
                      · rintro (h | ⟨h1, h2, h3⟩)
                        · rw [getPath_node_cons, hu] at h
                          exact ihh.mpr (Or.inl h)
                        · rw [getPath_node_cons, hd] at h1
                          rw [getPath_node_cons, hu] at h2
                          refine ihh.mpr (Or.inr ⟨h1, h2, ?_⟩)
                          intro q' hq' w2 hc
                          refine h3 (a :: q') (cons_prefix_build a hq') w2 ?_
                          rw [getPath_node_cons, hu]
                          exact hc
                  | leaf w2 =>
                      constructor
                      · intro h
                        left
                        rw [getPath_node_cons, hu]
                        exact h
                      · rintro (h | ⟨h1, h2, h3⟩)
                        · rw [getPath_node_cons, hu] at h
                          exact h
                        · exfalso
                          rw [getPath_node_cons, hd] at h1
                          cases qs with
                          | nil =>
                              rw [getPath_node_cons, hu] at h2
                              exact Option.noConfusion
                                (show (some (ConfigNode.node vs) : Option ConfigNode)
                                  = none from h2)
                          | cons x r =>
                              exact absurd (show (none : Option ConfigNode)
                                  = some (ConfigNode.leaf v) from h1) (by simp)
              | none =>
                  constructor
                  · intro h
                    left
                    rw [getPath_node_cons, hu]
                    exact h
                  · rintro (h | ⟨h1, h2, h3⟩)
                    · rw [getPath_node_cons, hu] at h
                      exact h
                    · exfalso
                      rw [getPath_node_cons, hd] at h1
                      exact Option.noConfusion h1

theorem foldl_diff_preserve (old : Entries) :
    ∀ (L : List (List String × Val)) (cfg : Entries) (p : List String) (v : Val),
      getPath (.node cfg) p = some (.leaf v) →
      (∀ q u, (q, u) ∈ L → lookupFlat (flattenEntries old) q = some u → ¬ (q <+: p)) →
      getPath (.node (L.foldl (fun cfg kv =>
          match lookupFlat (flattenEntries old) kv.1 with
          | some ov => if ov = kv.2 then diffStep cfg kv.1 else cfg
          | none => cfg) cfg)) p = some (.leaf v) := by
  intro L
  induction L with
  | nil => intro cfg p v h _; exact h
  | cons kv rest ih =>
      intro cfg p v h hcond
      rw [List.foldl_cons]
      apply ih _ p v ?_ (fun q u hm ho => hcond q u (List.mem_cons_of_mem _ hm) ho)
      obtain ⟨q0, u0⟩ := kv
      show getPath (.node (match lookupFlat (flattenEntries old) q0 with
            | some ov => if ov = u0 then diffStep cfg q0 else cfg
            | none => cfg)) p = some (.leaf v)
      cases ho : lookupFlat (flattenEntries old) q0 with
      | none => exact h
      | some ov =>
          show getPath (.node (if ov = u0 then diffStep cfg q0 else cfg)) p = some (.leaf v)
          by_cases he : ov = u0
          · rw [if_pos he]
            refine diffStep_preserve_leaf cfg q0 p v h ?_
            exact hcond q0 u0 (List.mem_cons_self _ _) (by rw [ho, he])
          · rw [if_neg he]
            exact h

/-- `diff_config` deletes exactly the leaf paths whose value equals the old
(stored) config's flattened value, and keeps every other leaf path with its
value. -/
theorem diffEntries_getPath (old cfg : Entries) (hwf : wfEntries cfg = true)
    (p : List String) (v : Val) :
    getPath (.node (diffEntries old cfg)) p = some (.leaf v) ↔
      (getPath (.node cfg) p = some (.leaf v) ∧
        lookupFlat (flattenEntries old) p ≠ some v) := by
  constructor
  · intro h
    have h2 : getPath (.node ((flattenEntries cfg).foldl (fun cfg kv =>
        match lookupFlat (flattenEntries old) kv.1 with
        | some ov => if ov = kv.2 then diffStep cfg kv.1 else cfg
        | none => cfg) cfg)) p = some (.leaf v) := h
    have horig := foldl_diff_no_new_leaf old _ _ _ _ h2
    refine ⟨horig, ?_⟩
    intro hold
    have hmem : (p, v) ∈ flattenEntries cfg :=
      lookupFlat_mem _ _ _ (getPath_leaf_lookupFlat p cfg v horig)
    have hne : p ≠ [] := by
      intro hp
      subst hp
      have h' : (some (ConfigNode.node cfg) : Option ConfigNode) = some (.leaf v) := horig
      simp at h'
    exact foldl_diff_removes old _ _ _ _ _ hmem hold hne h2
  · rintro ⟨h, hnot⟩
    show getPath (.node ((flattenEntries cfg).foldl (fun cfg kv =>
        match lookupFlat (flattenEntries old) kv.1 with
        | some ov => if ov = kv.2 then diffStep cfg kv.1 else cfg
        | none => cfg) cfg)) p = some (.leaf v)
    apply foldl_diff_preserve old _ _ _ _ h
    intro q u hm ho hpre
    have hq := flatten_mem_getPath cfg q u hwf hm
    obtain ⟨t, ht⟩ := hpre
    cases t with
    | nil =>
        have hqp : q = p := by simpa using ht
        subst hqp
        have heq : ConfigNode.leaf u = ConfigNode.leaf v := by
          have h3 := hq.symm.trans h
          injection h3
        have huv : u = v := by injection heq
        exact hnot (by rw [← huv]; exact ho)
    | cons x t2 =>
        rw [← ht, getPath_append, hq] at h
        exact absurd (show (none : Option ConfigNode)
            = some (ConfigNode.leaf v) from h) (by simp)

/-! ## Claim theorems: the compose/diff round trip -/

/-- C3 counterexample: for the *derived* preset `exA` (chain `exRoot → exA`)
and the empty override delta `D = {}`, composing, merging `D` on top and
diffing back through `exA.diff_config` does not reproduce `D`: the diff runs
against `exA`'s own delta `{y: 2}` only, so the inherited `x = 1` survives —
a leaf, not an empty container, so the difference is not explained by
empty-container pruning. -/
theorem claim_C3_counterexample :
    exA.composeConfig
      = .ok [("x", ConfigNode.leaf (Val.vInt 1)), ("y", ConfigNode.leaf (Val.vInt 2))] ∧
    deepUpdate (.node [("x", ConfigNode.leaf (Val.vInt 1)),
        ("y", ConfigNode.leaf (Val.vInt 2))]) ([] : List (String × ConfigNode))
      = .ok (.node [("x", ConfigNode.leaf (Val.vInt 1)),
          ("y", ConfigNode.leaf (Val.vInt 2))]) ∧
    exA.diffConfig [("x", ConfigNode.leaf (Val.vInt 1)), ("y", ConfigNode.leaf (Val.vInt 2))]
      = [("x", ConfigNode.leaf (Val.vInt 1))] ∧
    flattenEntries [("x", ConfigNode.leaf (Val.vInt 1))] ≠ flattenEntries [] := by
  refine ⟨rfl, rfl, rfl, ?_⟩
  intro h
  exact absurd (rfl.trans h : [((["x"] : List String), Val.vInt 1)] = []) (by simp)

/-- C3 (amended): for a *root* preset `B`, an override delta `D` that is
well-formed, merge-compatible with `B`'s config and a genuine override
(no flattened path of `D` carries `B`'s value), composing `B`, deep-merging
`D` on top and diffing the result against `B` reproduces exactly `D`'s leaf
paths and values (containers that hold no leaf, i.e. empty ones, are not
distinguished — the claim's "up to pruning" clause). -/
theorem claim_C3_amended (B : Preset) (hroot : B.base = none)
    (hcd : B.data.config = B.config)
    (D : List (String × ConfigNode))
    (hwfB : wfEntries B.config = true) (hwfD : wfEntries D = true)
    (hcompat : compatibleStrict B.config D = true)
    (hgen : ∀ r, r ∈ flattenEntries D →
      lookupFlat (flattenEntries B.config) r.1 ≠ some r.2) :
    B.composeConfig = .ok B.config ∧
    deepUpdate (.node B.config) D = .ok (.node (specDeepMerge B.config D)) ∧
    (∀ p v, getPath (.node (B.diffConfig (specDeepMerge B.config D))) p = some (.leaf v)
      ↔ getPath (.node D) p = some (.leaf v)) := by
  cases B with
  | mk f b =>
      simp only [Preset.base] at hroot
      subst hroot
      have hcd' : f.data.config = f.config := hcd
      refine ⟨?_, deepUpdate_eq_specDeepMerge _ _ hcompat, ?_⟩
      · show (Except.ok f.data.config : Except Unit Entries) = Except.ok f.config
        rw [hcd']
      · intro p v
        have hwfM : wfEntries (specDeepMerge f.config D) = true :=
          wf_specDeepMerge D f.config hwfB hwfD
        rw [show Preset.diffConfig (.mk f none)
            (specDeepMerge (Preset.config (.mk f none)) D)
            = diffEntries f.config (specDeepMerge f.config D) from rfl]
        rw [diffEntries_getPath f.config _ hwfM p v]
        rw [specDeepMerge_getPath p f.config D hwfD v]
        constructor
        · rintro ⟨h1 | ⟨hB, hDn, hpre⟩, hnot⟩
          · exact h1
          · exact absurd (getPath_leaf_lookupFlat p f.config v hB) hnot
        · intro hD
          refine ⟨Or.inl hD, ?_⟩
          intro hold
          exact hgen (p, v)
            (lookupFlat_mem _ _ _ (getPath_leaf_lookupFlat p D v hD)) hold

/-- Witness for the amended C3 at a concrete root and delta: the delta
`{x: 5, z: 7}` over root `{x: 1}` composes, merges and diffs back to itself. -/
theorem claim_C3_witness :
    exRoot.composeConfig = .ok [("x", ConfigNode.leaf (Val.vInt 1))] ∧
    deepUpdate (.node [("x", ConfigNode.leaf (Val.vInt 1))])
        [("x", ConfigNode.leaf (Val.vInt 5)), ("z", ConfigNode.leaf (Val.vInt 7))]
      = .ok (.node [("x", ConfigNode.leaf (Val.vInt 5)),
          ("z", ConfigNode.leaf (Val.vInt 7))]) ∧
    (getPath (.node (exRoot.diffConfig
        (specDeepMerge exRoot.config
          [("x", ConfigNode.leaf (Val.vInt 5)), ("z", ConfigNode.leaf (Val.vInt 7))])))
        ["z"] = some (.leaf (.vInt 7))
      ↔ getPath (.node [("x", ConfigNode.leaf (Val.vInt 5)),
          ("z", ConfigNode.leaf (Val.vInt 7))]) ["z"] = some (.leaf (.vInt 7))) := by
  have h := claim_C3_amended exRoot rfl rfl
    [("x", ConfigNode.leaf (Val.vInt 5)), ("z", ConfigNode.leaf (Val.vInt 7))]
    rfl rfl rfl (by decide)
  exact ⟨h.1.trans rfl, h.2.1.trans rfl, h.2.2 ["z"] (.vInt 7)⟩

end TaskConf
